import Mathlib

/-!
# Verification of the 2d-utils cubic-spline engine and circumcircle utility

This file is a shallow embedding, in Lean 4, of the Python sources
`src/bidimensional/spline.py` (classes `Spline`, `Spline2DBase`, `Spline2D`)
and `src/bidimensional/circumcircle.py` (class `Circumcircle`) of the
`erlete/2d-utils` repository, together with theorems that settle the frozen
specification claims about them.

Modelling conventions:

* Machine floating-point arithmetic is idealized as exact arithmetic in a
  linear ordered field `K` (instantiated at `ℚ` for executable instances and
  at `ℝ` where square roots, real powers and `atan2` are involved).
* Python exceptions are modelled by the `Except PyErr` monad: any statement
  that can raise (out-of-bounds indexing, singular-matrix solve, numpy
  zero-step `arange`, arithmetic on `None`) is a `.error`; the normal return
  is `.ok`.
* A Python function that deliberately returns `None` as a value (the
  out-of-range query outcome of `Spline.position` and its derivatives)
  returns `.ok none`; a numeric return is `.ok (some v)`.
* Python lists / 1-d numpy arrays are `List K`; the square matrix built by
  `Spline.__calc_matrix_a` is a total function `ℕ → ℕ → K` built from the
  zero matrix by the same sequence of element assignments the code performs
  (all in bounds once the explicit size checks modelled below have passed),
  restricted to `Fin n` when fed to the linear solver.
-/

/-- Python exception kinds that the embedded code can raise. -/
inductive PyErr : Type
  /-- `IndexError`: sequence index out of range. -/
  | indexError : PyErr
  /-- `numpy.linalg.LinAlgError`: singular matrix passed to `solve`. -/
  | linAlgError : PyErr
  /-- `TypeError`: arithmetic on `None`. -/
  | typeError : PyErr
  /-- `ZeroDivisionError`: `numpy.arange` with a zero step. -/
  | zeroDivisionError : PyErr
  /-- `ValueError`: numpy broadcast failure, or a collinear triangle. -/
  | valueError : PyErr
  deriving DecidableEq, Repr

variable {K : Type} [LinearOrderedField K]

/-- `numpy.diff` on a 1-d array: consecutive differences `l[i+1] - l[i]`. -/
def npDiff (l : List K) : List K :=
  List.zipWith (fun b a => b - a) l.tail l

/-- `numpy.cumsum` on a 1-d array: partial sums `l[0] + ... + l[i]`. -/
def npCumsum (l : List K) : List K :=
  (l.scanl (· + ·) 0).tail

/-- One Python element assignment `M[r, c] = v` on a matrix modelled as a
total function. -/
def setM (M : ℕ → ℕ → K) (r c : ℕ) (v : K) : ℕ → ℕ → K :=
  fun r' c' => if r' = r ∧ c' = c then v else M r' c'

/-- The body of the `__calc_matrix_a` loop for one iteration `i`: the guarded
diagonal assignment, then `matrix[i+1, i] = diff[i]`, then
`matrix[i, i+1] = diff[i]`. -/
def calcAStep (n : ℕ) (hd : List K) (M : ℕ → ℕ → K) (i : ℕ) : ℕ → ℕ → K :=
  let Md := if i ≠ n - 2 then
      setM M (i + 1) (i + 1) (2 * (hd.getD i 0 + hd.getD (i + 1) 0))
    else M
  setM (setM Md (i + 1) i (hd.getD i 0)) i (i + 1) (hd.getD i 0)

/-- `Spline.__calc_matrix_a(diff)`: builds the `n × n` coefficient matrix `A`
for the `b`-coefficient system, starting from `np.zeros((n, n))`, folding
`calcAStep` over `range(n - 1)`, and then applying the three final
assignments.  For `n < 2` the code raises `IndexError` (`matrix[0, 0]` for
`n = 0`, the final `matrix[0, 1] = 0.0` assignment for `n = 1`); every
assignment and every `diff` access in the loop is in bounds for `n ≥ 2`, so
`List.getD` junk values are never read. -/
def calcMatrixA (n : ℕ) (hd : List K) : Except PyErr (ℕ → ℕ → K) :=
  if n < 2 then .error .indexError
  else
    let m1 := (List.range (n - 1)).foldl (calcAStep n hd)
      (setM (K := K) (fun _ _ => 0) 0 0 1)
    .ok (setM (setM (setM m1 0 1 0) (n - 1) (n - 2) 0) (n - 1) (n - 1) 1)

/-- `Spline.__calc_matrix_b(diff)`: builds the length-`n` right-hand side of
the `b`-coefficient system.  The loop writes index `i + 1` for
`i ∈ 0..n-3`, each write reading `d[i]`, `d[i+1]`, `d[i+2]`; the written
indices are pairwise distinct, so the result is stated entrywise.  The read
`d[i+2]` raises `IndexError` exactly when `n ≥ 3` and `len(d) < n`. -/
def calcMatrixB (n : ℕ) (d hd : List K) : Except PyErr (ℕ → K) :=
  if 3 ≤ n ∧ d.length < n then .error .indexError
  else
    .ok fun j =>
      if 1 ≤ j ∧ j ≤ n - 2 then
        3 * (d.getD (j + 1) 0 - d.getD j 0) / hd.getD j 0
          - 3 * (d.getD j 0 - d.getD (j - 1) 0) / hd.getD (j - 1) 0
      else 0

/-- The binary search of Python's `bisect.bisect` (= `bisect_right`):
`lo`/`hi` are narrowed until they meet; the probe `a[mid]` is always in
bounds since `lo < hi ≤ len(a)` at every probe, so the `getD` default is
never read. -/
def bisectAux (l : List K) (q : K) : ℕ → ℕ → ℕ → ℕ
  | 0, lo, _ => lo
  | fuel + 1, lo, hi =>
    if lo < hi then
      let mid := (lo + hi) / 2
      if q < l.getD mid 0 then bisectAux l q fuel lo mid
      else bisectAux l q fuel (mid + 1) hi
    else lo

/-- `bisect.bisect(l, q)`: rightmost insertion point of `q` in `l`.  The
window `hi - lo` shrinks at every probe, so fuel `l.length` (the initial
window size) can never run out; the fuel argument only makes the recursion
structural. -/
def bisect (l : List K) (q : K) : ℕ :=
  bisectAux l q l.length 0 l.length

/-- The linear solve `numpy.linalg.solve(A, v)` on a nonsingular matrix,
modelled exactly by Cramer's rule (the solver's contract: the unique `x`
with `A x = v`); the singular case is rejected before this is used. -/
def linSolve {n : ℕ} (A : Matrix (Fin n) (Fin n) K) (v : Fin n → K) :
    Fin n → K :=
  fun i => Matrix.cramer A v i / A.det

/-- The state of a fitted `Spline` instance: the knot sequence `x` and the
four per-segment coefficient sequences. -/
structure Spline (K : Type) where
  x : List K
  a : List K
  b : List K
  c : List K
  d : List K

/-- `Spline.__init__(x, y)`: fits the cubic spline.  Steps, in the source's
evaluation order: `d := y`; build `A` (raises for `n < 2`); build the
right-hand side (raises when it reads past `d`); `np.linalg.solve` (raises
`LinAlgError` on a singular `A`); the `c` list comprehension reads
`np.diff(d)[i]` for `i ∈ 0..n-2`, raising `IndexError` exactly when
`len(d) < n` (given `n ≥ 2` here); finally `a`.  No input validation is
performed anywhere. -/
def Spline.fit (x y : List K) : Except PyErr (Spline K) :=
  let n := x.length
  let xDiff := npDiff x
  let d := y
  match calcMatrixA n xDiff with
  | .error e => .error e
  | .ok A =>
    match calcMatrixB n d xDiff with
    | .error e => .error e
    | .ok rhs =>
      let AM : Matrix (Fin n) (Fin n) K := Matrix.of fun i j => A i.1 j.1
      let rv : Fin n → K := fun i => rhs i.1
      if AM.det = 0 then .error .linAlgError
      else
        let b := List.ofFn (linSolve AM rv)
        if d.length < n then .error .indexError
        else
          let c := (List.range (n - 1)).map fun i =>
            (d.getD (i + 1) 0 - d.getD i 0) / xDiff.getD i 0
              - xDiff.getD i 0 * (b.getD (i + 1) 0 + 2 * b.getD i 0) / 3
          let a := (List.range (n - 1)).map fun i =>
            (b.getD (i + 1) 0 - b.getD i 0) / (3 * xDiff.getD i 0)
          .ok ⟨x, a, b, c, d⟩

/-- `Spline.__search_index(q)`: `bisect.bisect(self.x, q) - 1`.  The code
only calls this after the range guard, where `bisect ≥ 1`, so the truncated
`ℕ` subtraction agrees with Python's `int` subtraction at every use. -/
def Spline.searchIndex (s : Spline K) (q : K) : ℕ :=
  bisect s.x q - 1

/-- `Spline.position(q)`: `None` (modelled `.ok none`) strictly outside
`[x[0], x[-1]]`; otherwise evaluates the located segment's cubic.  The
accesses `x[0]`/`x[-1]` raise on an empty knot list; the coefficient
accesses `a[i]`, `b[i]`, `c[i]`, `d[i]` raise `IndexError` when `i` is past
the corresponding list (which happens at `q = x[-1]`, where the unguarded
search yields `i = n - 1` but `a` has `n - 1` entries). -/
def Spline.position (s : Spline K) (q : K) : Except PyErr (Option K) :=
  match s.x with
  | [] => .error .indexError
  | x0 :: xs =>
    if ¬(x0 ≤ q ∧ q ≤ (x0 :: xs).getLastD 0) then .ok none
    else
      let i := s.searchIndex q
      let dx := q - s.x.getD i 0
      match s.a[i]?, s.b[i]?, s.c[i]?, s.d[i]? with
      | some ai, some bi, some ci, some di =>
        .ok (some (ai * dx ^ 3 + bi * dx ^ 2 + ci * dx + di))
      | _, _, _, _ => .error .indexError

/-- `Spline.first_derivative(q)`: same guard and segment lookup as
`position`; evaluates `3 a dx² + 2 b dx + c` (no `d` access). -/
def Spline.firstDerivative (s : Spline K) (q : K) : Except PyErr (Option K) :=
  match s.x with
  | [] => .error .indexError
  | x0 :: xs =>
    if ¬(x0 ≤ q ∧ q ≤ (x0 :: xs).getLastD 0) then .ok none
    else
      let i := s.searchIndex q
      let dx := q - s.x.getD i 0
      match s.a[i]?, s.b[i]?, s.c[i]? with
      | some ai, some bi, some ci =>
        .ok (some (3 * ai * dx ^ 2 + 2 * bi * dx + ci))
      | _, _, _ => .error .indexError

/-- `Spline.second_derivative(q)`: same guard and segment lookup as
`position`; evaluates `6 a dx + 2 b` (no `c` or `d` access). -/
def Spline.secondDerivative (s : Spline K) (q : K) : Except PyErr (Option K) :=
  match s.x with
  | [] => .error .indexError
  | x0 :: xs =>
    if ¬(x0 ≤ q ∧ q ≤ (x0 :: xs).getLastD 0) then .ok none
    else
      let i := s.searchIndex q
      let dx := q - s.x.getD i 0
      match s.a[i]?, s.b[i]? with
      | some ai, some bi =>
        .ok (some (6 * ai * dx + 2 * bi))
      | _, _ => .error .indexError

/-! ## Generic list access lemmas -/

theorem getD_mono_of_pairwise_le {l : List K} (h : List.Pairwise (· ≤ ·) l)
    {i j : ℕ} (hij : i ≤ j) (hj : j < l.length) :
    l.getD i 0 ≤ l.getD j 0 := by
  rcases eq_or_lt_of_le hij with rfl | hlt
  · exact le_refl _
  · rw [List.getD_eq_getElem _ _ (lt_trans hlt hj), List.getD_eq_getElem _ _ hj]
    exact List.pairwise_iff_get.mp h ⟨i, lt_trans hlt hj⟩ ⟨j, hj⟩ hlt

theorem getD_strict_mono_of_pairwise_lt {l : List K} (h : List.Pairwise (· < ·) l)
    {i j : ℕ} (hij : i < j) (hj : j < l.length) :
    l.getD i 0 < l.getD j 0 := by
  rw [List.getD_eq_getElem _ _ (lt_trans hij hj), List.getD_eq_getElem _ _ hj]
  exact List.pairwise_iff_get.mp h ⟨i, lt_trans hij hj⟩ ⟨j, hj⟩ hij

theorem length_npDiff (l : List K) : (npDiff l).length = l.length - 1 := by
  simp [npDiff]

theorem getD_npDiff {l : List K} {i : ℕ} (hi : i + 1 < l.length) :
    (npDiff l).getD i 0 = l.getD (i + 1) 0 - l.getD i 0 := by
  have hlen : i < (npDiff l).length := by rw [length_npDiff]; omega
  have htail : i < l.tail.length := by simp; omega
  rw [List.getD_eq_getElem _ _ hlen, List.getD_eq_getElem _ _ hi,
    List.getD_eq_getElem _ _ (by omega : i < l.length)]
  simp only [npDiff, List.getElem_zipWith, List.getElem_tail]

/-! ## Characterization of the `bisect.bisect` binary search -/

theorem bisectAux_spec {l : List K} {q : K} (hsort : List.Pairwise (· ≤ ·) l) :
    ∀ (fuel lo hi : ℕ), hi - lo ≤ fuel → lo ≤ hi → hi ≤ l.length →
    (∀ j, j < lo → l.getD j 0 ≤ q) →
    (∀ j, hi ≤ j → j < l.length → q < l.getD j 0) →
    (∀ j, j < bisectAux l q fuel lo hi → l.getD j 0 ≤ q) ∧
      (∀ j, bisectAux l q fuel lo hi ≤ j → j < l.length → q < l.getD j 0) ∧
      lo ≤ bisectAux l q fuel lo hi ∧ bisectAux l q fuel lo hi ≤ hi := by
  intro fuel
  induction fuel with
  | zero =>
    intro lo hi hfuel hlohi hhi hlo hup
    have : hi = lo := by omega
    subst this
    exact ⟨hlo, fun j hj => hup j hj, le_refl _, le_refl _⟩
  | succ fuel ih =>
    intro lo hi hfuel hlohi hhi hlo hup
    by_cases hlt : lo < hi
    · have hmid_lt : (lo + hi) / 2 < hi := by omega
      have hmid_ge : lo ≤ (lo + hi) / 2 := by omega
      by_cases hq : q < l.getD ((lo + hi) / 2) 0
      · have hrec := ih lo ((lo + hi) / 2) (by omega) (by omega) (by omega) hlo
          (fun j hj hjl => lt_of_lt_of_le hq
            (getD_mono_of_pairwise_le hsort hj hjl))
        simp only [bisectAux, if_pos hlt, if_pos hq]
        exact ⟨hrec.1, hrec.2.1, hrec.2.2.1, le_trans hrec.2.2.2 (le_of_lt hmid_lt)⟩
      · push_neg at hq
        have hrec := ih ((lo + hi) / 2 + 1) hi (by omega) (by omega) hhi
          (fun j hj => le_trans
            (getD_mono_of_pairwise_le hsort (by omega) (by omega)) hq)
          hup
        simp only [bisectAux, if_pos hlt, if_neg (not_lt.mpr hq)]
        exact ⟨hrec.1, hrec.2.1, le_trans (by omega) hrec.2.2.1, hrec.2.2.2⟩
    · have : hi = lo := by omega
      subst this
      simp only [bisectAux, if_neg hlt]
      exact ⟨hlo, fun j hj => hup j hj, le_refl _, le_refl _⟩

theorem bisect_spec {l : List K} {q : K} (hsort : List.Pairwise (· ≤ ·) l) :
    (∀ j, j < bisect l q → l.getD j 0 ≤ q) ∧
      (∀ j, bisect l q ≤ j → j < l.length → q < l.getD j 0) ∧
      bisect l q ≤ l.length := by
  have h := bisectAux_spec (q := q) hsort l.length 0 l.length (by omega) (by omega)
    (le_refl _) (by omega) (by omega)
  exact ⟨h.1, h.2.1, h.2.2.2⟩

/-- An index whose knot is `≤ q` lies strictly left of the insertion point. -/
theorem lt_bisect_of_getD_le {l : List K} {q : K} (hsort : List.Pairwise (· ≤ ·) l)
    {j : ℕ} (hj : j < l.length) (hle : l.getD j 0 ≤ q) : j < bisect l q := by
  by_contra hcon
  exact absurd hle (not_le.mpr ((bisect_spec hsort).2.1 j (by omega) hj))

/-- An index whose knot is `> q` lies at or right of the insertion point. -/
theorem bisect_le_of_lt_getD {l : List K} {q : K} (hsort : List.Pairwise (· ≤ ·) l)
    {j : ℕ} (hlt : q < l.getD j 0) : bisect l q ≤ j := by
  by_contra hcon
  exact absurd ((bisect_spec hsort).1 j (by omega)) (not_le.mpr hlt)

/-! ## The coefficient system as the specification words it -/

/-- The `N × N` matrix `A` exactly as the specification describes it:
`A[0,0] = 1`, `A[N-1,N-1] = 1`, and for interior row `i` (`1 ≤ i ≤ N-2`):
`A[i,i-1] = h[i-1]`, `A[i,i] = 2(h[i-1]+h[i])`, `A[i,i+1] = h[i]`; all other
entries zero. -/
def Aspec (n : ℕ) (h : ℕ → K) : ℕ → ℕ → K := fun r c =>
  if r = 0 ∧ c = 0 then 1
  else if r = n - 1 ∧ c = n - 1 then 1
  else if 1 ≤ r ∧ r ≤ n - 2 ∧ c + 1 = r then h c
  else if 1 ≤ r ∧ r ≤ n - 2 ∧ c = r then 2 * (h (r - 1) + h r)
  else if 1 ≤ r ∧ r ≤ n - 2 ∧ c = r + 1 then h r
  else 0

/-- The right-hand side vector exactly as the specification describes it:
`rhs[0] = rhs[N-1] = 0`, and for interior `i`:
`rhs[i] = 3(y[i+1]-y[i])/h[i] - 3(y[i]-y[i-1])/h[i-1]`. -/
def rhsSpec (n : ℕ) (y h : ℕ → K) : ℕ → K := fun j =>
  if 1 ≤ j ∧ j ≤ n - 2 then
    3 * (y (j + 1) - y j) / h j - 3 * (y j - y (j - 1)) / h (j - 1)
  else 0

/-- State of the `__calc_matrix_a` loop after the first `m` iterations. -/
def AfoldSpec (n m : ℕ) (h : ℕ → K) : ℕ → ℕ → K := fun r c =>
  if r = 0 ∧ c = 0 then 1
  else if c + 1 = r ∧ r ≤ m then h c
  else if r + 1 = c ∧ r < m then h r
  else if r = c ∧ 1 ≤ r ∧ r ≤ m ∧ r ≠ n - 1 then 2 * (h (r - 1) + h r)
  else 0

theorem calcAStep_eq (n : ℕ) (hd : List K) (M : ℕ → ℕ → K) (i : ℕ) :
    calcAStep n hd M i = fun r c =>
      if r = i ∧ c = i + 1 then hd.getD i 0
      else if r = i + 1 ∧ c = i then hd.getD i 0
      else if i ≠ n - 2 ∧ r = i + 1 ∧ c = i + 1 then
        2 * (hd.getD i 0 + hd.getD (i + 1) 0)
      else M r c := by
  by_cases h3 : i ≠ n - 2
  · funext r c
    simp only [calcAStep, if_pos h3, setM]
    by_cases h1 : r = i ∧ c = i + 1
    · rw [if_pos h1, if_pos h1]
    · rw [if_neg h1, if_neg h1]
      by_cases h2 : r = i + 1 ∧ c = i
      · rw [if_pos h2, if_pos h2]
      · rw [if_neg h2, if_neg h2]
        by_cases h4 : r = i + 1 ∧ c = i + 1
        · rw [if_pos h4, if_pos ⟨h3, h4⟩]
        · rw [if_neg h4, if_neg (by tauto)]
  · funext r c
    simp only [calcAStep, if_neg h3, setM]
    by_cases h1 : r = i ∧ c = i + 1
    · rw [if_pos h1, if_pos h1]
    · rw [if_neg h1, if_neg h1]
      by_cases h2 : r = i + 1 ∧ c = i
      · rw [if_pos h2, if_pos h2]
      · rw [if_neg h2, if_neg h2, if_neg (by tauto)]

theorem foldA_spec (n : ℕ) (hd : List K) :
    ∀ m : ℕ, m ≤ n - 1 →
    (List.range m).foldl (calcAStep n hd) (setM (K := K) (fun _ _ => 0) 0 0 1)
      = AfoldSpec n m (fun i => hd.getD i 0) := by
  intro m
  induction m with
  | zero =>
    intro _
    funext r c
    simp only [List.range_zero, List.foldl_nil, setM, AfoldSpec]
    split_ifs <;> first | rfl | omega | tauto
  | succ m ih =>
    intro hm
    rw [List.range_succ, List.foldl_append, List.foldl_cons, List.foldl_nil,
      ih (by omega), calcAStep_eq]
    funext r c
    simp only [AfoldSpec]
    by_cases h1 : r = m ∧ c = m + 1
    · obtain ⟨rfl, rfl⟩ := h1
      rw [if_pos ⟨rfl, rfl⟩, if_neg (by omega), if_neg (by omega),
        if_pos ⟨rfl, by omega⟩]
    · rw [if_neg h1]
      by_cases h2 : r = m + 1 ∧ c = m
      · obtain ⟨rfl, rfl⟩ := h2
        rw [if_pos ⟨rfl, rfl⟩, if_neg (by omega), if_pos (by omega)]
      · rw [if_neg h2]
        by_cases h3 : m ≠ n - 2 ∧ r = m + 1 ∧ c = m + 1
        · obtain ⟨hne, rfl, rfl⟩ := h3
          rw [if_pos ⟨hne, rfl, rfl⟩, if_neg (by omega), if_neg (by omega),
            if_neg (by omega), if_pos ⟨rfl, by omega, by omega, by omega⟩]
          simp only [Nat.add_sub_cancel]
        · rw [if_neg h3]
          split_ifs <;> first | rfl | omega | tauto

theorem calcMatrixA_spec (n : ℕ) (hd : List K) (hn : 2 ≤ n) :
    calcMatrixA n hd = .ok (Aspec n (fun i => hd.getD i 0)) := by
  simp only [calcMatrixA]
  rw [if_neg (by omega), foldA_spec n hd (n - 1) (le_refl _)]
  congr 1
  funext r c
  simp only [setM, AfoldSpec, Aspec]
  by_cases h1 : r = n - 1 ∧ c = n - 1
  · obtain ⟨rfl, rfl⟩ := h1
    rw [if_pos ⟨rfl, rfl⟩, if_neg (by omega), if_pos ⟨rfl, rfl⟩]
  · rw [if_neg h1]
    by_cases h2 : r = n - 1 ∧ c = n - 2
    · obtain ⟨rfl, rfl⟩ := h2
      rw [if_pos ⟨rfl, rfl⟩]
      split_ifs <;> first | rfl | omega | tauto
    · rw [if_neg h2]
      by_cases h3 : r = 0 ∧ c = 1
      · obtain ⟨rfl, rfl⟩ := h3
        rw [if_pos ⟨rfl, rfl⟩]
        split_ifs <;> first | rfl | omega | tauto
      · rw [if_neg h3]
        split_ifs <;> first | rfl | omega | tauto

theorem calcMatrixB_spec (n : ℕ) (d hd : List K) (hlen : ¬(3 ≤ n ∧ d.length < n)) :
    calcMatrixB n d hd
      = .ok (rhsSpec n (fun i => d.getD i 0) (fun i => hd.getD i 0)) := by
  rw [calcMatrixB, if_neg hlen]
  rfl

/-! ## Nonsingularity of the coefficient matrix (strict diagonal dominance) -/

/-- A strictly row-diagonally-dominant matrix over a linear ordered field has
nonzero determinant (maximum-principle argument on a kernel vector). -/
theorem det_ne_zero_of_row_dominant {n : ℕ} (A : Matrix (Fin n) (Fin n) K)
    (hdom : ∀ i, ∑ j ∈ Finset.univ.erase i, |A i j| < |A i i|) :
    A.det ≠ 0 := by
  intro hdet
  obtain ⟨v, hv0, hAv⟩ := (Matrix.exists_mulVec_eq_zero_iff).mpr hdet
  obtain ⟨k, hk⟩ := Function.ne_iff.mp hv0
  obtain ⟨i, -, hmax⟩ := Finset.exists_max_image Finset.univ (fun j => |v j|)
    ⟨k, Finset.mem_univ k⟩
  have hvi : 0 < |v i| :=
    lt_of_lt_of_le (abs_pos.mpr hk) (hmax k (Finset.mem_univ k))
  have hrow : ∑ j, A i j * v j = 0 := by
    have := congrFun hAv i
    simpa [Matrix.mulVec, Matrix.dotProduct] using this
  have hsplit : A i i * v i = -∑ j ∈ Finset.univ.erase i, A i j * v j := by
    have h2 : A i i * v i + ∑ j ∈ Finset.univ.erase i, A i j * v j = 0 := by
      rw [Finset.add_sum_erase Finset.univ (fun j => A i j * v j)
        (Finset.mem_univ i)]
      exact hrow
    linarith
  have hchain : |A i i| * |v i| < |A i i| * |v i| := by
    calc |A i i| * |v i| = |A i i * v i| := (abs_mul _ _).symm
      _ = |∑ j ∈ Finset.univ.erase i, A i j * v j| := by rw [hsplit, abs_neg]
      _ ≤ ∑ j ∈ Finset.univ.erase i, |A i j * v j| :=
          Finset.abs_sum_le_sum_abs _ _
      _ = ∑ j ∈ Finset.univ.erase i, |A i j| * |v j| := by
          simp only [abs_mul]
      _ ≤ ∑ j ∈ Finset.univ.erase i, |A i j| * |v i| :=
          Finset.sum_le_sum fun j _ =>
            mul_le_mul_of_nonneg_left (hmax j (Finset.mem_univ j)) (abs_nonneg _)
      _ = (∑ j ∈ Finset.univ.erase i, |A i j|) * |v i| :=
          (Finset.sum_mul _ _ _).symm
      _ < |A i i| * |v i| := mul_lt_mul_of_pos_right (hdom i) hvi
  exact absurd hchain (lt_irrefl _)

theorem sum_indicator_fin_val {n : ℕ} (t : ℕ) (ht : t < n) (v : K) :
    ∑ j : Fin n, (if j.1 = t then v else 0) = v := by
  rw [Finset.sum_eq_single (⟨t, ht⟩ : Fin n)]
  · rw [if_pos rfl]
  · intro b _ hb
    exact if_neg fun hc => hb (Fin.ext hc)
  · intro habs
    exact absurd (Finset.mem_univ _) habs

/-- The rows of the specification matrix are strictly diagonally dominant
when all the segment widths involved are positive. -/
theorem Aspec_row_dominant (n : ℕ) (hn : 2 ≤ n) (h : ℕ → K)
    (hpos : ∀ i, i < n - 1 → 0 < h i) (i : Fin n) :
    ∑ j ∈ Finset.univ.erase i, |Matrix.of (fun r c : Fin n => Aspec n h r.1 c.1) i j|
      < |Matrix.of (fun r c : Fin n => Aspec n h r.1 c.1) i i| := by
  simp only [Matrix.of_apply]
  rcases Nat.eq_zero_or_pos i.1 with hi0 | hipos
  · have hdiag : Aspec n h i.1 i.1 = 1 := by
      simp only [Aspec, hi0]
      split_ifs <;> first | rfl | omega | tauto | simp_all
    have hoff : ∀ j ∈ Finset.univ.erase i, |Aspec n h i.1 j.1| = 0 := by
      intro j hj
      have hjne : j.1 ≠ i.1 := fun hc => Finset.ne_of_mem_erase hj (Fin.ext hc)
      have : Aspec n h i.1 j.1 = 0 := by
        simp only [Aspec, hi0]
        split_ifs <;> first | rfl | omega | tauto | simp_all
      rw [this, abs_zero]
    rw [Finset.sum_congr rfl hoff, Finset.sum_const, smul_zero, hdiag]
    exact abs_pos.mpr one_ne_zero
  · rcases eq_or_lt_of_le (Nat.le_sub_one_of_lt i.2) with hilast | hint
    · have hdiag : Aspec n h i.1 i.1 = 1 := by
        simp only [Aspec, hilast]
        split_ifs <;> first | rfl | omega | tauto | simp_all
      have hoff : ∀ j ∈ Finset.univ.erase i, |Aspec n h i.1 j.1| = 0 := by
        intro j hj
        have hjne : j.1 ≠ i.1 := fun hc => Finset.ne_of_mem_erase hj (Fin.ext hc)
        have : Aspec n h i.1 j.1 = 0 := by
          simp only [Aspec]
          split_ifs <;> first | rfl | omega | tauto | simp_all
        rw [this, abs_zero]
      rw [Finset.sum_congr rfl hoff, Finset.sum_const, smul_zero, hdiag]
      exact abs_pos.mpr one_ne_zero
    · -- interior row: `1 ≤ i ≤ n - 2`
      have hile : i.1 ≤ n - 2 := by omega
      have hpos1 : 0 < h (i.1 - 1) := hpos _ (by omega)
      have hpos2 : 0 < h i.1 := hpos _ (by omega)
      have hdiag : Aspec n h i.1 i.1 = 2 * (h (i.1 - 1) + h i.1) := by
        simp only [Aspec]
        split_ifs <;> first | rfl | omega | tauto | simp_all
      have hbound : ∀ j ∈ Finset.univ.erase i, |Aspec n h i.1 j.1|
          ≤ (if j.1 = i.1 - 1 then h (i.1 - 1) else 0)
            + (if j.1 = i.1 + 1 then h i.1 else 0) := by
        intro j hj
        have hjne : j.1 ≠ i.1 := fun hc => Finset.ne_of_mem_erase hj (Fin.ext hc)
        by_cases hcl : j.1 = i.1 - 1
        · have hv : Aspec n h i.1 j.1 = h j.1 := by
            simp only [Aspec]
            split_ifs <;> first | rfl | omega | tauto | simp_all
          rw [hv, if_pos hcl, if_neg (by omega), add_zero, hcl,
            abs_of_pos hpos1]
        · by_cases hcr : j.1 = i.1 + 1
          · have hv : Aspec n h i.1 j.1 = h i.1 := by
              simp only [Aspec]
              have : j.1 = i.1 + 1 := hcr
              split_ifs <;> first | rfl | omega | tauto | simp_all
            rw [hv, if_neg hcl, if_pos hcr, zero_add, abs_of_pos hpos2]
          · have hv : Aspec n h i.1 j.1 = 0 := by
              simp only [Aspec]
              split_ifs <;> first | rfl | omega | tauto | simp_all
            rw [hv, abs_zero, if_neg hcl, if_neg hcr, add_zero]
      have herase : ∀ j ∈ Finset.univ, j ∉ Finset.univ.erase i →
          (0 : K) ≤ (if j.1 = i.1 - 1 then h (i.1 - 1) else 0)
            + (if j.1 = i.1 + 1 then h i.1 else 0) := by
        intro j _ _
        apply add_nonneg <;> split_ifs <;>
          first | exact le_refl _ | exact le_of_lt hpos1 | exact le_of_lt hpos2
      calc ∑ j ∈ Finset.univ.erase i, |Aspec n h i.1 j.1|
          ≤ ∑ j ∈ Finset.univ.erase i,
            ((if j.1 = i.1 - 1 then h (i.1 - 1) else 0)
              + (if j.1 = i.1 + 1 then h i.1 else 0)) :=
            Finset.sum_le_sum hbound
        _ ≤ ∑ j : Fin n,
            ((if j.1 = i.1 - 1 then h (i.1 - 1) else 0)
              + (if j.1 = i.1 + 1 then h i.1 else 0)) :=
            Finset.sum_le_sum_of_subset_of_nonneg
              (Finset.erase_subset _ _) herase
        _ = h (i.1 - 1) + h i.1 := by
            rw [Finset.sum_add_distrib,
              sum_indicator_fin_val (i.1 - 1) (by omega) (h (i.1 - 1)),
              sum_indicator_fin_val (i.1 + 1) (by omega) (h i.1)]
        _ < |Aspec n h i.1 i.1| := by
            rw [hdiag, abs_of_pos (by positivity)]
            nlinarith

/-- The code's coefficient matrix, restricted to `Fin n`, is nonsingular for
any strictly increasing knot sequence. -/
theorem det_Aspec_ne_zero (n : ℕ) (hn : 2 ≤ n) (h : ℕ → K)
    (hpos : ∀ i, i < n - 1 → 0 < h i) :
    (Matrix.of (fun r c : Fin n => Aspec n h r.1 c.1)).det ≠ 0 :=
  det_ne_zero_of_row_dominant _ (Aspec_row_dominant n hn h hpos)

/-! ## Characterization of a successful fit -/

theorem getLastD_eq_getD (l : List K) : l.getLastD 0 = l.getD (l.length - 1) 0 := by
  rw [List.getLastD_eq_getLast?, List.getLast?_eq_getElem?, List.getD_eq_getElem?_getD]

theorem getD_ofFn {n : ℕ} (f : Fin n → K) {i : ℕ} (h : i < n) :
    (List.ofFn f).getD i 0 = f ⟨i, h⟩ := by
  rw [List.getD_eq_getElem _ _ (by simpa using h)]
  simp

theorem Aspec_congr {n : ℕ} {h1 h2 : ℕ → K} (hc : ∀ i, i < n - 1 → h1 i = h2 i) :
    Aspec n h1 = Aspec n h2 := by
  funext r c
  simp only [Aspec]
  split_ifs <;>
    first
      | rfl
      | (exact hc _ (by omega))
      | (rw [hc (r - 1) (by omega), hc r (by omega)])
      | (exact hc r (by omega))

theorem rhsSpec_congr {n : ℕ} {y1 y2 h1 h2 : ℕ → K}
    (hy : ∀ i, i < n → y1 i = y2 i) (hc : ∀ i, i < n - 1 → h1 i = h2 i) :
    rhsSpec n y1 h1 = rhsSpec n y2 h2 := by
  funext j
  simp only [rhsSpec]
  split_ifs with hj
  · rw [hy (j + 1) (by omega), hy j (by omega), hy (j - 1) (by omega),
      hc j (by omega), hc (j - 1) (by omega)]
  · rfl

/-- The `b` coefficient list a successful fit stores: the Cramer solution of
the coefficient system. -/
def bSolved (x y : List K) : List K :=
  List.ofFn (linSolve
    (Matrix.of fun i j : Fin x.length =>
      Aspec x.length (fun t => (npDiff x).getD t 0) i.1 j.1)
    (fun i => rhsSpec x.length (fun t => y.getD t 0)
      (fun t => (npDiff x).getD t 0) i.1))

/-- The `c` coefficient list a successful fit stores. -/
def cSolved (x y : List K) : List K :=
  (List.range (x.length - 1)).map fun i =>
    (y.getD (i + 1) 0 - y.getD i 0) / (npDiff x).getD i 0
      - (npDiff x).getD i 0 * ((bSolved x y).getD (i + 1) 0
        + 2 * (bSolved x y).getD i 0) / 3

/-- The `a` coefficient list a successful fit stores. -/
def aSolved (x y : List K) : List K :=
  (List.range (x.length - 1)).map fun i =>
    ((bSolved x y).getD (i + 1) 0 - (bSolved x y).getD i 0)
      / (3 * (npDiff x).getD i 0)

/-- Positivity of all segment widths for a strictly increasing knot list. -/
theorem npDiff_pos {x : List K} (hsort : List.Pairwise (· < ·) x) :
    ∀ i, i < x.length - 1 → 0 < (npDiff x).getD i 0 := by
  intro i hi
  rw [getD_npDiff (by omega)]
  have := getD_strict_mono_of_pairwise_lt hsort (Nat.lt_succ_self i) (by omega)
  linarith

/-- On a strictly increasing knot sequence of length `≥ 2` and a value list
at least as long, `Spline.__init__` succeeds and stores exactly these
fields. -/
theorem fit_ok (x y : List K) (hn : 2 ≤ x.length)
    (hsort : List.Pairwise (· < ·) x) (hy : x.length ≤ y.length) :
    Spline.fit x y = .ok ⟨x, aSolved x y, bSolved x y, cSolved x y, y⟩ := by
  have hdet := det_Aspec_ne_zero x.length hn
    (fun t => (npDiff x).getD t 0) (npDiff_pos hsort)
  simp only [Spline.fit,
    calcMatrixA_spec x.length (npDiff x) hn,
    calcMatrixB_spec x.length y (npDiff x) (by omega)]
  rw [if_neg hdet, if_neg (by omega : ¬y.length < x.length)]
  rfl

theorem aSolved_length (x y : List K) : (aSolved x y).length = x.length - 1 := by
  simp [aSolved]

theorem bSolved_length (x y : List K) : (bSolved x y).length = x.length := by
  simp [bSolved]

theorem cSolved_length (x y : List K) : (cSolved x y).length = x.length - 1 := by
  simp [cSolved]

/-! ## Evaluation lemmas for fitted splines -/

theorem bisect_at_knot {x : List K} (hsort : List.Pairwise (· < ·) x)
    {j : ℕ} (hj : j + 1 < x.length) :
    bisect x (x.getD j 0) = j + 1 := by
  have hsle : List.Pairwise (· ≤ ·) x := hsort.imp le_of_lt
  have hlow : j < bisect x (x.getD j 0) :=
    lt_bisect_of_getD_le hsle (by omega) (le_refl _)
  have hhigh : bisect x (x.getD j 0) ≤ j + 1 :=
    bisect_le_of_lt_getD hsle
      (getD_strict_mono_of_pairwise_lt hsort (Nat.lt_succ_self j) hj)
  omega

theorem bisect_at_last_knot {x : List K} (hsort : List.Pairwise (· < ·) x)
    (hx : x ≠ []) :
    bisect x (x.getD (x.length - 1) 0) = x.length := by
  have hsle : List.Pairwise (· ≤ ·) x := hsort.imp le_of_lt
  have hlen : 0 < x.length := List.length_pos.mpr hx
  have hlow : x.length - 1 < bisect x (x.getD (x.length - 1) 0) :=
    lt_bisect_of_getD_le hsle (by omega) (le_refl _)
  have hhigh := (bisect_spec (q := x.getD (x.length - 1) 0) hsle).2.2
  omega

/-- Interpolation exactness at every knot except the last: the segment lookup
resolves to `j`, `dx = 0`, and the cubic collapses to its constant term. -/
theorem position_at_knot (x a b c d : List K)
    (hsort : List.Pairwise (· < ·) x) {j : ℕ} (hj : j + 1 < x.length)
    (hja : j < a.length) (hjb : j < b.length) (hjc : j < c.length)
    (hjd : j < d.length) :
    (Spline.mk x a b c d).position (x.getD j 0) = .ok (some (d.getD j 0)) := by
  cases x with
  | nil => simp at hj
  | cons x0 xs =>
    have hsle : List.Pairwise (· ≤ ·) (x0 :: xs) := hsort.imp le_of_lt
    have hg1 : x0 ≤ (x0 :: xs).getD j 0 := by
      have := getD_mono_of_pairwise_le hsle (Nat.zero_le j) (by omega)
      simpa using this
    have hg2 : (x0 :: xs).getD j 0 ≤ (x0 :: xs).getLastD 0 := by
      rw [getLastD_eq_getD]
      exact getD_mono_of_pairwise_le hsle (by omega) (by omega)
    simp only [Spline.position, Spline.searchIndex, bisect_at_knot hsort hj,
      Nat.add_sub_cancel]
    rw [if_neg (not_not_intro ⟨hg1, hg2⟩)]
    rw [List.getElem?_eq_getElem hja, List.getElem?_eq_getElem hjb,
      List.getElem?_eq_getElem hjc, List.getElem?_eq_getElem hjd]
    rw [sub_self]
    rw [List.getD_eq_getElem _ _ hjd]
    norm_num

/-- At the last knot the unguarded search yields segment index `n - 1`, one
past the end of the `a` coefficient list, and all three evaluators raise
`IndexError`. -/
theorem eval_at_last_knot (x a b c d : List K)
    (hsort : List.Pairwise (· < ·) x) (hn : 2 ≤ x.length)
    (ha : a.length = x.length - 1) :
    (Spline.mk x a b c d).position (x.getD (x.length - 1) 0)
        = .error .indexError
      ∧ (Spline.mk x a b c d).firstDerivative (x.getD (x.length - 1) 0)
        = .error .indexError
      ∧ (Spline.mk x a b c d).secondDerivative (x.getD (x.length - 1) 0)
        = .error .indexError := by
  cases x with
  | nil => simp at hn
  | cons x0 xs =>
    have hsle : List.Pairwise (· ≤ ·) (x0 :: xs) := hsort.imp le_of_lt
    have hlen : (x0 :: xs).length = xs.length + 1 := by rw [List.length_cons]
    have hg1 : x0 ≤ (x0 :: xs).getD ((x0 :: xs).length - 1) 0 := by
      have := getD_mono_of_pairwise_le hsle (Nat.zero_le ((x0 :: xs).length - 1))
        (by omega)
      simpa using this
    have hg2 : (x0 :: xs).getD ((x0 :: xs).length - 1) 0
        ≤ (x0 :: xs).getLastD 0 := by
      rw [getLastD_eq_getD]
    have hbis := bisect_at_last_knot hsort (x := x0 :: xs) (by simp)
    have hnone : a[bisect (x0 :: xs) ((x0 :: xs).getD ((x0 :: xs).length - 1) 0) - 1]?
        = none := by
      apply List.getElem?_eq_none
      rw [hbis]
      omega
    refine ⟨?_, ?_, ?_⟩ <;>
      · simp only [Spline.position, Spline.firstDerivative,
          Spline.secondDerivative, Spline.searchIndex]
        rw [if_neg (not_not_intro ⟨hg1, hg2⟩), hnone]

/-- Strictly inside the knot range (`t[0] ≤ q < t[n-1]`), the segment lookup
lands on a valid segment and all three evaluators return a number. -/
theorem eval_in_range (x a b c d : List K)
    (hsort : List.Pairwise (· < ·) x) (hn : 2 ≤ x.length)
    (ha : x.length - 1 ≤ a.length) (hb : x.length - 1 ≤ b.length)
    (hc2 : x.length - 1 ≤ c.length) (hd2 : x.length - 1 ≤ d.length)
    (q : K) (hq1 : x.getD 0 0 ≤ q) (hq2 : q < x.getD (x.length - 1) 0) :
    (∃ v, (Spline.mk x a b c d).position q = .ok (some v))
      ∧ (∃ v, (Spline.mk x a b c d).firstDerivative q = .ok (some v))
      ∧ (∃ v, (Spline.mk x a b c d).secondDerivative q = .ok (some v)) := by
  cases x with
  | nil => simp at hn
  | cons x0 xs =>
    have hsle : List.Pairwise (· ≤ ·) (x0 :: xs) := hsort.imp le_of_lt
    have hlen : (x0 :: xs).length = xs.length + 1 := by rw [List.length_cons]
    have hg1 : x0 ≤ q := by simpa using hq1
    have hg2 : q ≤ (x0 :: xs).getLastD 0 := by
      rw [getLastD_eq_getD]
      exact le_of_lt hq2
    have hlow : 0 < bisect (x0 :: xs) q :=
      lt_bisect_of_getD_le hsle (by omega) (by simpa using hq1)
    have hhigh : bisect (x0 :: xs) q ≤ (x0 :: xs).length - 1 :=
      bisect_le_of_lt_getD hsle hq2
    have hia : bisect (x0 :: xs) q - 1 < a.length := by omega
    have hib : bisect (x0 :: xs) q - 1 < b.length := by omega
    have hic : bisect (x0 :: xs) q - 1 < c.length := by omega
    have hid : bisect (x0 :: xs) q - 1 < d.length := by omega
    refine ⟨?_, ?_, ?_⟩ <;>
      · simp only [Spline.position, Spline.firstDerivative,
          Spline.secondDerivative, Spline.searchIndex]
        rw [if_neg (not_not_intro ⟨hg1, hg2⟩)]
        simp only [List.getElem?_eq_getElem hia, List.getElem?_eq_getElem hib,
          List.getElem?_eq_getElem hic, List.getElem?_eq_getElem hid]
        exact ⟨_, rfl⟩

/-! ## The two-dimensional spline (`Spline2D`), over `ℝ` -/

/-- Modelled from the spec: `Coordinate` (`bidimensional/coordinates.py`,
outside the provided sources) is "an immutable-enough 2-tuple of numeric
x, y"; `Coordinate(*pair)` simply carries its two constructor arguments.
The sampling loop stores one `Coordinate` per sample, built from the pair
returned by `Spline2D._compute_position` (whose components would be `None`
out of range, hence `Option`). -/
structure Coordinate : Type where
  fst : Option ℝ
  snd : Option ℝ

noncomputable section

/-- `numpy.hypot` with 1-d broadcasting: equal lengths pair up elementwise;
a length-1 operand broadcasts; anything else raises `ValueError`. -/
def npHypot (u v : List ℝ) : Except PyErr (List ℝ) :=
  if u.length = v.length then
    .ok (List.zipWith (fun a b => Real.sqrt (a ^ 2 + b ^ 2)) u v)
  else if u.length = 1 then
    .ok (v.map fun b => Real.sqrt ((u.getD 0 0) ^ 2 + b ^ 2))
  else if v.length = 1 then
    .ok (u.map fun a => Real.sqrt (a ^ 2 + (v.getD 0 0) ^ 2))
  else .error .valueError

/-- `Spline2D._compute_knots(x, y)`:
`[0] + list(np.cumsum(np.hypot(np.diff(x), np.diff(y))))`. -/
def computeKnots (x y : List ℝ) : Except PyErr (List ℝ) :=
  (npHypot (npDiff x) (npDiff y)).map fun hs => 0 :: npCumsum hs

/-- The number of samples `numpy.arange(start, stop, step)` produces:
`⌈(stop - start) / step⌉`, clamped at zero. -/
def arangeLen (start stop step : ℝ) : ℕ :=
  (⌈(stop - start) / step⌉).toNat

/-- `numpy.arange(start, stop, step)`: the arithmetic sweep
`start, start + step, ...` of length `arangeLen`. -/
def arange (start stop step : ℝ) : List ℝ :=
  (List.range (arangeLen start stop step)).map fun k : ℕ => start + (k : ℝ) * step

/-- `math.atan2(y, x)`, via the complex argument (same quadrant case split,
range `(-π, π]`, `atan2(0, 0) = 0`). -/
def atan2 (y x : ℝ) : ℝ :=
  Complex.arg ⟨x, y⟩

/-- `Spline2D._compute_position(i)`: the pair of axis positions.  An
exception inside either query propagates; an out-of-range `None` is carried
in the pair. -/
def computePosition (sx sy : Spline ℝ) (t : ℝ) :
    Except PyErr (Option ℝ × Option ℝ) := do
  let px ← sx.position t
  let py ← sy.position t
  return (px, py)

/-- `Spline2D._compute_curvature(i)`: evaluates the four derivative queries
(in the source's dictionary order), then the curvature formula.  A `None`
from an out-of-range query would make the arithmetic raise `TypeError`. -/
def computeCurvature (sx sy : Spline ℝ) (t : ℝ) : Except PyErr ℝ := do
  let x1o ← sx.firstDerivative t
  let x2o ← sx.secondDerivative t
  let y1o ← sy.firstDerivative t
  let y2o ← sy.secondDerivative t
  match x1o, x2o, y1o, y2o with
  | some x1, some x2, some y1, some y2 =>
    return (y2 * x1 - x2 * y1) / (x1 ^ 2 + y1 ^ 2) ^ ((3 : ℝ) / 2)
  | _, _, _, _ => .error .typeError

/-- `Spline2D._compute_yaw(i)`: `math.atan2(y', x')` of the two axis first
derivatives (the `y` query is evaluated first, as in the source).  A `None`
argument would make `atan2` raise `TypeError`. -/
def computeYaw (sx sy : Spline ℝ) (t : ℝ) : Except PyErr ℝ := do
  let y1o ← sy.firstDerivative t
  let x1o ← sx.firstDerivative t
  match y1o, x1o with
  | some y1, some x1 => return atan2 y1 x1
  | _, _ => .error .typeError

/-- The loop body of `Spline2D._compute_results`: one iteration per sample,
appending one position, one curvature and one yaw value. -/
def resultsAux (sx sy : Spline ℝ) :
    List ℝ → Except PyErr (List Coordinate × List ℝ × List ℝ)
  | [] => .ok ([], [], [])
  | t :: rest => do
    let p ← computePosition sx sy t
    let k ← computeCurvature sx sy t
    let w ← computeYaw sx sy t
    let (ps, ks, ws) ← resultsAux sx sy rest
    return (⟨p.1, p.2⟩ :: ps, k :: ks, w :: ws)

/-- `Spline2D._compute_results()`: sweeps
`np.arange(knots[0], knots[-1], generation_step)`.  `knots[0]` on an empty
knot list raises `IndexError`; `np.arange` with a zero step raises
`ZeroDivisionError`. -/
def computeResults (knots : List ℝ) (sx sy : Spline ℝ) (step : ℝ) :
    Except PyErr (List Coordinate × List ℝ × List ℝ) :=
  match knots with
  | [] => .error .indexError
  | k0 :: ks =>
    if step = 0 then .error .zeroDivisionError
    else resultsAux sx sy (arange k0 ((k0 :: ks).getLastD 0) step)

/-- The state of a constructed `Spline2D` instance. -/
structure Spline2D : Type where
  x : List ℝ
  y : List ℝ
  generationStep : ℝ
  knots : List ℝ
  splineX : Spline ℝ
  splineY : Spline ℝ
  positions : List Coordinate
  curvature : List ℝ
  yaw : List ℝ

/-- `Spline2D.__init__(x, y, generation_step)`: stores `x`, `y` directly in
the underscore fields (the validating property setters of `Spline2DBase` are
never invoked), computes the knots, fits the two axis splines, stores the
step directly (again bypassing its validating setter), and computes the
sampled results.  No validation of any kind runs at construction. -/
def Spline2D.construct (x y : List ℝ) (step : ℝ) : Except PyErr Spline2D := do
  let knots ← computeKnots x y
  let sx ← Spline.fit knots x
  let sy ← Spline.fit knots y
  let (ps, ks, ws) ← computeResults knots sx sy step
  return ⟨x, y, step, knots, sx, sy, ps, ks, ws⟩

end

/-! ## The cumulative arc-length knot sequence -/

theorem getD_map {l : List K} (f : K → K) {i : ℕ} (hi : i < l.length) :
    (l.map f).getD i 0 = f (l.getD i 0) := by
  rw [List.getD_eq_getElem _ _ (by simpa using hi), List.getElem_map,
    List.getD_eq_getElem _ _ hi]

theorem npCumsum_length (l : List K) : (npCumsum l).length = l.length := by
  simp [npCumsum, List.length_scanl]

theorem scanl_add_shift (l : List K) :
    ∀ c : K, List.scanl (· + ·) c l = (List.scanl (· + ·) 0 l).map (c + ·) := by
  induction l with
  | nil => intro c; simp
  | cons a t ih =>
    intro c
    rw [List.scanl_cons, List.scanl_cons, List.map_append]
    congr 1
    · simp
    · rw [ih (c + a), ih (0 + a), List.map_map]
      congr 1
      funext v
      simp only [Function.comp_apply]
      ring

theorem npCumsum_cons (a : K) (l : List K) :
    npCumsum (a :: l) = a :: (npCumsum l).map (a + ·) := by
  simp only [npCumsum, List.scanl_cons, List.singleton_append, List.tail_cons]
  rw [scanl_add_shift l (0 + a), zero_add]
  cases l with
  | nil => simp
  | cons b t =>
    rw [List.scanl_cons]
    simp

theorem npCumsum_getD_zero (a : K) (l : List K) :
    (npCumsum (a :: l)).getD 0 0 = a := by
  rw [npCumsum_cons]
  rfl

/-- The knot recurrence: each entry of `0 :: cumsum(l)` is the previous one
plus the corresponding increment. -/
theorem cons_cumsum_getD_succ (l : List K) :
    ∀ i, i < l.length →
    (0 :: npCumsum l).getD (i + 1) 0
      = (0 :: npCumsum l).getD i 0 + l.getD i 0 := by
  induction l with
  | nil => intro i hi; simp at hi
  | cons a t ih =>
    intro i hi
    rw [npCumsum_cons]
    match i with
    | 0 => simp
    | Nat.succ j =>
      have hj : j < t.length := by
        rw [List.length_cons] at hi
        omega
      have hjc : j < (npCumsum t).length := by rw [npCumsum_length]; exact hj
      show ((npCumsum t).map (a + ·)).getD j 0
        = (a :: (npCumsum t).map (a + ·)).getD j 0 + (a :: t).getD (j + 1) 0
      rw [getD_map _ hjc, List.getD_cons_succ]
      match j with
      | 0 =>
        cases t with
        | nil => simp at hj
        | cons b s =>
          rw [npCumsum_getD_zero]
          simp
      | Nat.succ k =>
        have hk : k < (npCumsum t).length := by rw [npCumsum_length]; omega
        rw [List.getD_cons_succ, getD_map _ hk]
        have := ih (k + 1) hj
        rw [List.getD_cons_succ, List.getD_cons_succ] at this
        rw [this]
        ring

theorem pairwise_lt_cons_cumsum (l : List K)
    (hpos : ∀ i, i < l.length → 0 < l.getD i 0) :
    List.Pairwise (· < ·) (0 :: npCumsum l) := by
  rw [← List.chain'_iff_pairwise, List.chain'_iff_get]
  intro i hi
  have hil : i < l.length := by
    simp only [List.length_cons, npCumsum_length] at hi
    omega
  have hrec := cons_cumsum_getD_succ l i hil
  have hp := hpos i hil
  have hlen : i + 1 < (0 :: npCumsum l).length := by
    simp only [List.length_cons, npCumsum_length]
    omega
  rw [List.get_eq_getElem, List.get_eq_getElem,
    ← List.getD_eq_getElem (0 :: npCumsum l) 0 (by omega),
    ← List.getD_eq_getElem (0 :: npCumsum l) 0 hlen]
  rw [hrec]
  linarith

/-- The elementwise arc-length increments of the waypoint chain. -/
noncomputable def hypotList (x y : List ℝ) : List ℝ :=
  List.zipWith (fun a b => Real.sqrt (a ^ 2 + b ^ 2)) (npDiff x) (npDiff y)

theorem hypotList_length (x y : List ℝ) (hlen : x.length = y.length) :
    (hypotList x y).length = x.length - 1 := by
  simp [hypotList, length_npDiff, hlen]

theorem hypotList_getD (x y : List ℝ) (hlen : x.length = y.length)
    {i : ℕ} (hi : i + 1 < x.length) :
    (hypotList x y).getD i 0
      = Real.sqrt ((x.getD (i + 1) 0 - x.getD i 0) ^ 2
        + (y.getD (i + 1) 0 - y.getD i 0) ^ 2) := by
  have hil : i < (hypotList x y).length := by
    rw [hypotList_length x y hlen]
    omega
  rw [List.getD_eq_getElem _ _ hil]
  simp only [hypotList, List.getElem_zipWith]
  rw [← List.getD_eq_getElem _ _ (by simp [length_npDiff]; omega : i < (npDiff x).length),
    ← List.getD_eq_getElem _ _ (by simp [length_npDiff, ← hlen]; omega : i < (npDiff y).length),
    getD_npDiff hi, getD_npDiff (by omega : i + 1 < y.length)]

theorem computeKnots_ok (x y : List ℝ) (hlen : x.length = y.length) :
    computeKnots x y = .ok (0 :: npCumsum (hypotList x y)) := by
  rw [computeKnots, npHypot,
    if_pos (by rw [length_npDiff, length_npDiff, hlen])]
  rfl

/-- Everything the downstream construction needs to know about the computed
knot sequence. -/
theorem knots_facts (x y : List ℝ) (hlen : x.length = y.length)
    (hn : 2 ≤ x.length)
    (hdist : ∀ i, i + 1 < x.length →
      ¬(x.getD (i + 1) 0 - x.getD i 0 = 0 ∧ y.getD (i + 1) 0 - y.getD i 0 = 0)) :
    computeKnots x y = .ok (0 :: npCumsum (hypotList x y))
      ∧ (0 :: npCumsum (hypotList x y)).length = x.length
      ∧ (0 :: npCumsum (hypotList x y)).getD 0 0 = 0
      ∧ List.Pairwise (· < ·) (0 :: npCumsum (hypotList x y))
      ∧ (∀ i, i + 1 < x.length →
          (0 :: npCumsum (hypotList x y)).getD (i + 1) 0
            = (0 :: npCumsum (hypotList x y)).getD i 0
              + Real.sqrt ((x.getD (i + 1) 0 - x.getD i 0) ^ 2
                + (y.getD (i + 1) 0 - y.getD i 0) ^ 2)) := by
  have hhl : (hypotList x y).length = x.length - 1 := hypotList_length x y hlen
  have hpos : ∀ i, i < (hypotList x y).length → 0 < (hypotList x y).getD i 0 := by
    intro i hi
    rw [hypotList_getD x y hlen (by omega)]
    apply Real.sqrt_pos.mpr
    rcases not_and_or.mp (hdist i (by omega)) with ha | hb
    · have h2 : 0 < (x.getD (i + 1) 0 - x.getD i 0) ^ 2 := by positivity
      nlinarith [sq_nonneg (y.getD (i + 1) 0 - y.getD i 0)]
    · have h2 : 0 < (y.getD (i + 1) 0 - y.getD i 0) ^ 2 := by positivity
      nlinarith [sq_nonneg (x.getD (i + 1) 0 - x.getD i 0)]
  refine ⟨computeKnots_ok x y hlen, ?_, rfl, pairwise_lt_cons_cumsum _ hpos, ?_⟩
  · simp [npCumsum_length, hhl]
    omega
  · intro i hi
    rw [cons_cumsum_getD_succ _ i (by omega), hypotList_getD x y hlen hi]

/-! ## The sampling sweep -/

theorem arange_length (start stop step : ℝ) :
    (arange start stop step).length = arangeLen start stop step := by
  rw [arange, List.length_map, List.length_range]

theorem arange_getD {start stop step : ℝ} {k : ℕ}
    (hk : k < arangeLen start stop step) :
    (arange start stop step).getD k 0 = start + k * step := by
  rw [List.getD_eq_getElem _ _ (by rw [arange_length]; exact hk)]
  simp only [arange, List.getElem_map, List.getElem_range]

/-- The `numpy.arange` sample count is exactly the number of sweep values
strictly below `stop` (for a positive step). -/
theorem lt_arangeLen_iff {start stop step : ℝ} (hstep : 0 < step) (k : ℕ) :
    k < arangeLen start stop step ↔ start + k * step < stop := by
  rw [arangeLen, Int.lt_toNat, Int.lt_ceil, lt_div_iff₀ hstep]
  push_cast
  constructor <;> intro h <;> linarith

theorem resultsAux_ok (sx sy : Spline ℝ) (ts : List ℝ)
    (h : ∀ t ∈ ts,
      (∃ v, sx.position t = .ok (some v))
        ∧ (∃ v, sy.position t = .ok (some v))
        ∧ (∃ v, computeCurvature sx sy t = .ok v)
        ∧ (∃ v, computeYaw sx sy t = .ok v)) :
    ∃ ps ks ws, resultsAux sx sy ts = .ok (ps, ks, ws)
      ∧ ps.length = ts.length ∧ ks.length = ts.length ∧ ws.length = ts.length
      ∧ (∀ k, k < ts.length →
          computeCurvature sx sy (ts.getD k 0) = .ok (ks.getD k 0)
            ∧ computeYaw sx sy (ts.getD k 0) = .ok (ws.getD k 0)) := by
  induction ts with
  | nil =>
    exact ⟨[], [], [], rfl, rfl, rfl, rfl, fun k hk => absurd hk (by simp)⟩
  | cons t rest ih =>
    obtain ⟨⟨vx, hvx⟩, ⟨vy, hvy⟩, ⟨kv, hkv⟩, ⟨wv, hwv⟩⟩ :=
      h t (List.mem_cons_self t rest)
    obtain ⟨ps, ks, ws, hres, hlp, hlk, hlw, hptw⟩ :=
      ih (fun t' ht' => h t' (List.mem_cons_of_mem _ ht'))
    have hcp : computePosition sx sy t = .ok (some vx, some vy) := by
      rw [computePosition, hvx]
      show (sy.position t).bind _ = _
      rw [hvy]
      rfl
    refine ⟨⟨some vx, some vy⟩ :: ps, kv :: ks, wv :: ws, ?_, by simp [hlp],
      by simp [hlk], by simp [hlw], ?_⟩
    · rw [resultsAux, hcp]
      show (computeCurvature sx sy t).bind _ = _
      rw [hkv]
      show (computeYaw sx sy t).bind _ = _
      rw [hwv]
      show (resultsAux sx sy rest).bind _ = _
      rw [hres]
      rfl
    · intro k hk
      match k with
      | 0 => exact ⟨hkv, hwv⟩
      | Nat.succ j =>
        simp only [List.getD_cons_succ]
        exact hptw j (by simpa using hk)

/-- Everything `Spline2D.__init__` produces on validly shaped input: the
knots, the two axis splines, and three parallel result lists, one entry per
`arange` sample. -/
theorem construct_ok (x y : List ℝ) (step : ℝ)
    (hlen : x.length = y.length) (hn : 2 ≤ x.length) (hstep : 0 < step)
    (hdist : ∀ i, i + 1 < x.length →
      ¬(x.getD (i + 1) 0 - x.getD i 0 = 0 ∧ y.getD (i + 1) 0 - y.getD i 0 = 0)) :
    ∃ d : Spline2D, Spline2D.construct x y step = .ok d
      ∧ d.knots = 0 :: npCumsum (hypotList x y)
      ∧ d.positions.length
          = arangeLen 0 (d.knots.getD (d.knots.length - 1) 0) step
      ∧ d.curvature.length = d.positions.length
      ∧ d.yaw.length = d.positions.length
      ∧ d.splineX
          = ⟨d.knots, aSolved d.knots x, bSolved d.knots x, cSolved d.knots x, x⟩
      ∧ d.splineY
          = ⟨d.knots, aSolved d.knots y, bSolved d.knots y, cSolved d.knots y, y⟩
      ∧ (∀ k, k < d.positions.length →
          computeCurvature d.splineX d.splineY (0 + (k : ℝ) * step)
              = .ok (d.curvature.getD k 0)
            ∧ computeYaw d.splineX d.splineY (0 + (k : ℝ) * step)
              = .ok (d.yaw.getD k 0)) := by
  obtain ⟨hck, hklen, hk0, hksort, -⟩ := knots_facts x y hlen hn hdist
  have hkn : 2 ≤ (0 :: npCumsum (hypotList x y)).length := by omega
  have hfitx : Spline.fit (0 :: npCumsum (hypotList x y)) x
      = .ok ⟨0 :: npCumsum (hypotList x y),
        aSolved (0 :: npCumsum (hypotList x y)) x,
        bSolved (0 :: npCumsum (hypotList x y)) x,
        cSolved (0 :: npCumsum (hypotList x y)) x, x⟩ :=
    fit_ok _ _ hkn hksort (by omega)
  have hfity : Spline.fit (0 :: npCumsum (hypotList x y)) y
      = .ok ⟨0 :: npCumsum (hypotList x y),
        aSolved (0 :: npCumsum (hypotList x y)) y,
        bSolved (0 :: npCumsum (hypotList x y)) y,
        cSolved (0 :: npCumsum (hypotList x y)) y, y⟩ :=
    fit_ok _ _ hkn hksort (by omega)
  set knots := 0 :: npCumsum (hypotList x y) with hknots
  set sx : Spline ℝ := ⟨knots, aSolved knots x, bSolved knots x,
    cSolved knots x, x⟩ with hsx
  set sy : Spline ℝ := ⟨knots, aSolved knots y, bSolved knots y,
    cSolved knots y, y⟩ with hsy
  set samples := arange 0 (knots.getLastD 0) step with hsamples
  have hstop : knots.getLastD 0 = knots.getD (knots.length - 1) 0 :=
    getLastD_eq_getD knots
  have hsample_mem : ∀ t ∈ samples, ∃ k : ℕ,
      k < arangeLen 0 (knots.getLastD 0) step ∧ t = 0 + (k : ℝ) * step := by
    intro t ht
    rw [hsamples, arange] at ht
    obtain ⟨k, hk, rfl⟩ := List.mem_map.mp ht
    exact ⟨k, List.mem_range.mp hk, rfl⟩
  have hin : ∀ t ∈ samples,
      knots.getD 0 0 ≤ t ∧ t < knots.getD (knots.length - 1) 0 := by
    intro t ht
    obtain ⟨k, hk, rfl⟩ := hsample_mem t ht
    constructor
    · rw [hk0]
      positivity
    · rw [← hstop]
      have := (lt_arangeLen_iff hstep k).mp hk
      linarith
  have heval : ∀ t ∈ samples,
      (∃ v, sx.position t = .ok (some v))
        ∧ (∃ v, sy.position t = .ok (some v))
        ∧ (∃ v, computeCurvature sx sy t = .ok v)
        ∧ (∃ v, computeYaw sx sy t = .ok v) := by
    intro t ht
    obtain ⟨hq1, hq2⟩ := hin t ht
    obtain ⟨hpx, hx1e, hx2e⟩ := eval_in_range knots (aSolved knots x)
      (bSolved knots x) (cSolved knots x) x hksort hkn
      (by rw [aSolved_length]) (by rw [bSolved_length]; omega)
      (by rw [cSolved_length]) (by omega) t hq1 hq2
    obtain ⟨hpy, hy1e, hy2e⟩ := eval_in_range knots (aSolved knots y)
      (bSolved knots y) (cSolved knots y) y hksort hkn
      (by rw [aSolved_length]) (by rw [bSolved_length]; omega)
      (by rw [cSolved_length]) (by omega) t hq1 hq2
    obtain ⟨x1, hx1⟩ := hx1e
    obtain ⟨x2, hx2⟩ := hx2e
    obtain ⟨y1, hy1⟩ := hy1e
    obtain ⟨y2, hy2⟩ := hy2e
    refine ⟨hpx, hpy, ?_, ?_⟩
    · rw [computeCurvature, hx1]
      show ∃ v, (sx.secondDerivative t).bind _ = Except.ok v
      rw [hx2]
      show ∃ v, (sy.firstDerivative t).bind _ = Except.ok v
      rw [hy1]
      show ∃ v, (sy.secondDerivative t).bind _ = Except.ok v
      rw [hy2]
      exact ⟨_, rfl⟩
    · rw [computeYaw, hy1]
      show ∃ v, (sx.firstDerivative t).bind _ = Except.ok v
      rw [hx1]
      exact ⟨_, rfl⟩
  obtain ⟨ps, ks, ws, hres, hlp, hlk, hlw, hptw⟩ := resultsAux_ok sx sy samples heval
  have hcr : computeResults knots sx sy step = resultsAux sx sy samples := by
    rw [hknots]
    simp only [computeResults]
    rw [if_neg (ne_of_gt hstep)]
  refine ⟨⟨x, y, step, knots, sx, sy, ps, ks, ws⟩, ?_, rfl, ?_, ?_, ?_, rfl, rfl, ?_⟩
  · rw [Spline2D.construct, hck]
    show (Spline.fit knots x).bind _ = _
    rw [hfitx]
    show (Spline.fit knots y).bind _ = _
    rw [hfity]
    show (computeResults knots sx sy step).bind _ = _
    rw [hcr, hres]
    rfl
  · show ps.length = _
    rw [hlp, hsamples, arange_length, hstop]
  · show ks.length = ps.length
    rw [hlk, hlp]
  · show ws.length = ps.length
    rw [hlw, hlp]
  · intro k hk
    rw [show (⟨x, y, step, knots, sx, sy, ps, ks, ws⟩ : Spline2D).positions = ps
      from rfl, hlp] at hk
    have hgetD : samples.getD k 0 = 0 + (k : ℝ) * step := by
      rw [hsamples]
      exact arange_getD (by rwa [hsamples, arange_length] at hk)
    have h2 := hptw k hk
    rwa [hgetD] at h2

/-! ## The circumcircle vertex handling (`circumcircle.py`) -/

/-- A 2-d point, standing for `Coordinate2D` (modelled from the spec: a
numeric 2-tuple with componentwise subtraction). -/
structure Pt (K : Type) where
  x : K
  y : K
  deriving DecidableEq

/-- The collinearity test expression of `Circumcircle._ensure_non_collinear`:
`a.x (b.y - c.y) + b.x (c.y - a.y) + c.x (a.y - b.y)`; the method raises
`ValueError` exactly when it is zero. -/
def collinearExpr (a b c : Pt K) : K :=
  a.x * (b.y - c.y) + b.x * (c.y - a.y) + c.x * (a.y - b.y)

/-- The vertical-alignment-prevention block of `Circumcircle._calculate`:
guarded by `any(v[1] - v[0] for v in combinations((a, b, c), 2))` (truthiness
of a `Coordinate2D` difference modelled from the spec as "some component
nonzero"; on the only reachable inputs — non-collinear ones — some pair
always differs, so the model and any reasonable truthiness agree), it swaps
`a` with `c` when `(b - a).x == 0`, then swaps `a` with `b` when, for the
possibly already swapped vertices, `(c - a).x == 0`. -/
def calcVertices (a b c : Pt K) : Pt K × Pt K × Pt K :=
  if (b.x - a.x ≠ 0 ∨ b.y - a.y ≠ 0) ∨ (c.x - a.x ≠ 0 ∨ c.y - a.y ≠ 0)
      ∨ (c.x - b.x ≠ 0 ∨ c.y - b.y ≠ 0) then
    let a1 := if b.x - a.x = 0 then c else a
    let c1 := if b.x - a.x = 0 then a else c
    let a2 := if c1.x - a1.x = 0 then b else a1
    let b2 := if c1.x - a1.x = 0 then a1 else b
    (a2, b2, c1)
  else (a, b, c)

/-- The vertex state stored by `Circumcircle.__init__` / `_calculate`:
`ValueError` on a collinear triple, otherwise the (possibly swapped)
vertices.  The remainder of `_calculate` computes `_center` and `_radius`
from these stored vertices and never writes `_a`, `_b`, `_c` again, so the
accessors `a`, `b`, `c` return exactly this triple. -/
def circumVertices (a b c : Pt K) : Except PyErr (Pt K × Pt K × Pt K) :=
  if collinearExpr a b c = 0 then .error .valueError
  else .ok (calcVertices a b c)

theorem collinearExpr_of_all_eq (a : Pt K) : collinearExpr a a a = 0 := by
  simp only [collinearExpr]
  ring

/-- For a non-collinear triple the guard of the swap block holds and the two
swap conditions are mutually exclusive, giving the exact stored triple. -/
theorem calcVertices_characterization (a b c : Pt K)
    (hnc : collinearExpr a b c ≠ 0) :
    (b.x - a.x = 0 → calcVertices a b c = (c, b, a))
      ∧ (b.x - a.x ≠ 0 → c.x - a.x = 0 → calcVertices a b c = (b, a, c))
      ∧ (b.x - a.x ≠ 0 → c.x - a.x ≠ 0 → calcVertices a b c = (a, b, c)) := by
  have hguard : (b.x - a.x ≠ 0 ∨ b.y - a.y ≠ 0) ∨ (c.x - a.x ≠ 0 ∨ c.y - a.y ≠ 0)
      ∨ (c.x - b.x ≠ 0 ∨ c.y - b.y ≠ 0) := by
    by_contra hall
    push_neg at hall
    obtain ⟨⟨h1, h2⟩, ⟨h3, h4⟩, -⟩ := hall
    apply hnc
    have hbx : b.x = a.x := by linarith
    have hby : b.y = a.y := by linarith
    have hcx : c.x = a.x := by linarith
    have hcy : c.y = a.y := by linarith
    simp only [collinearExpr, hbx, hby, hcx, hcy]
    ring
  refine ⟨?_, ?_, ?_⟩
  · intro hba
    have hca : a.x - c.x ≠ 0 := by
      intro hac
      apply hnc
      have hbx : b.x = a.x := by linarith
      have hcx : c.x = a.x := by linarith
      simp only [collinearExpr, hbx, hcx]
      ring
    rw [calcVertices, if_pos hguard]
    simp only [if_pos hba, if_neg hca]
  · intro hba hca
    rw [calcVertices, if_pos hguard]
    simp only [if_neg hba, if_pos hca]
  · intro hba hca
    rw [calcVertices, if_pos hguard]
    simp only [if_neg hba, if_neg hca]

/-! ## Remaining helpers for the claim theorems -/

/-- Cramer's rule: the vector returned by the modelled `np.linalg.solve`
actually solves the system. -/
theorem mulVec_linSolve {n : ℕ} (A : Matrix (Fin n) (Fin n) K) (v : Fin n → K)
    (hdet : A.det ≠ 0) : Matrix.mulVec A (linSolve A v) = v := by
  have h1 : linSolve A v = A.det⁻¹ • (Matrix.cramer A v) := by
    funext i
    simp [linSolve, div_eq_inv_mul, mul_comm]
  rw [h1, Matrix.mulVec_smul, Matrix.mulVec_cramer, smul_smul,
    inv_mul_cancel₀ hdet, one_smul]

/-- For two knots the coefficient matrix is the identity, whatever the
segment widths are. -/
theorem Aspec_of_eq_two {n : ℕ} (hn2 : n = 2) (h : ℕ → K) :
    (Matrix.of fun i j : Fin n => Aspec n h i.1 j.1) = 1 := by
  subst hn2
  ext i j
  fin_cases i <;> fin_cases j <;> simp [Aspec, Matrix.one_apply]

/-! ## The claims -/

/-- C3: the claim says `Spline.__init__` raises a configuration error
whenever the two sequences have different lengths or `N < 2`.  The code has
no validation at all; this concrete instance with `len(x) = 2 < 3 = len(y)`
constructs successfully, refuting the claim. -/
theorem C3_mismatched_lengths_construct :
    Spline.fit ([0, 1] : List ℚ) [0, 1, 2]
      = .ok ⟨[0, 1], aSolved [0, 1] [0, 1, 2], bSolved [0, 1] [0, 1, 2],
          cSolved [0, 1] [0, 1, 2], [0, 1, 2]⟩ :=
  fit_ok [0, 1] [0, 1, 2] (by decide) (by decide) (by decide)

/-- C3 (amended): `Spline.__init__` performs no validation; it raises an
(unintentional) `IndexError` whenever `N < 2`, and whenever the value
sequence is strictly shorter than the parameter sequence; a value sequence
at least as long as the parameter sequence is never rejected. -/
theorem C3_amended_no_validation :
    (∀ x y : List K, x.length < 2 → Spline.fit x y = .error .indexError)
      ∧ (∀ x y : List K, 2 ≤ x.length → y.length < x.length →
          Spline.fit x y = .error .indexError) := by
  constructor
  · intro x y h
    simp only [Spline.fit, calcMatrixA, if_pos h]
  · intro x y hn hy
    rcases Nat.lt_or_ge x.length 3 with h3 | h3
    · have h2 : x.length = 2 := by omega
      simp only [Spline.fit,
        calcMatrixA_spec x.length (npDiff x) hn,
        calcMatrixB_spec x.length y (npDiff x) (by omega)]
      rw [Aspec_of_eq_two h2, Matrix.det_one, if_neg one_ne_zero, if_pos hy]
    · simp only [Spline.fit, calcMatrixA_spec x.length (npDiff x) hn,
        calcMatrixB, if_pos (And.intro h3 hy)]

/-- C3 witness instances for the amended claim: a one-point fit and a fit
with a too-short value list both raise `IndexError`. -/
theorem C3_amended_witness :
    Spline.fit ([0] : List ℚ) [0] = .error .indexError
      ∧ Spline.fit ([0, 1] : List ℚ) [0] = .error .indexError :=
  ⟨C3_amended_no_validation.1 [0] [0] (by decide),
    C3_amended_no_validation.2 [0, 1] [0] (by decide) (by decide)⟩

/-- C5: for a strictly increasing knot sequence, the built matrix and
right-hand side are exactly the specification's `A` and `rhs` (with
`h[i] = t[i+1] - t[i]`), and the stored `b` coefficient vector solves
`A · b = rhs`. -/
theorem C5_b_solves_tridiagonal_system (t yv : List K) (hn : 2 ≤ t.length)
    (hsort : List.Pairwise (· < ·) t) (hylen : yv.length = t.length) :
    ∃ s, Spline.fit t yv = .ok s
      ∧ calcMatrixA t.length (npDiff t)
          = .ok (Aspec t.length fun i => t.getD (i + 1) 0 - t.getD i 0)
      ∧ calcMatrixB t.length yv (npDiff t)
          = .ok (rhsSpec t.length (fun i => yv.getD i 0)
              fun i => t.getD (i + 1) 0 - t.getD i 0)
      ∧ ((Matrix.of fun i j : Fin t.length =>
            Aspec t.length (fun i' => t.getD (i' + 1) 0 - t.getD i' 0) i.1 j.1)
          |>.mulVec (fun i : Fin t.length => s.b.getD i.1 0))
          = fun i : Fin t.length =>
              rhsSpec t.length (fun i' => yv.getD i' 0)
                (fun i' => t.getD (i' + 1) 0 - t.getD i' 0) i.1 := by
  have hcong : ∀ i, i < t.length - 1 →
      (npDiff t).getD i 0 = t.getD (i + 1) 0 - t.getD i 0 :=
    fun i hi => getD_npDiff (by omega)
  have hAe : Aspec t.length (fun i => (npDiff t).getD i 0)
      = Aspec t.length (fun i => t.getD (i + 1) 0 - t.getD i 0) :=
    Aspec_congr hcong
  have hBe : rhsSpec t.length (fun i => yv.getD i 0)
        (fun i => (npDiff t).getD i 0)
      = rhsSpec t.length (fun i => yv.getD i 0)
        (fun i => t.getD (i + 1) 0 - t.getD i 0) :=
    rhsSpec_congr (fun _ _ => rfl) hcong
  have hdet := det_Aspec_ne_zero t.length hn
    (fun i => (npDiff t).getD i 0) (npDiff_pos hsort)
  refine ⟨_, fit_ok t yv hn hsort (by omega), ?_, ?_, ?_⟩
  · rw [calcMatrixA_spec _ _ hn, hAe]
  · rw [calcMatrixB_spec _ _ _ (by omega), hBe]
  · have hb : (fun i : Fin t.length =>
        (bSolved t yv).getD i.1 0)
        = linSolve
          (Matrix.of fun i j : Fin t.length =>
            Aspec t.length (fun i' => (npDiff t).getD i' 0) i.1 j.1)
          (fun i : Fin t.length =>
            rhsSpec t.length (fun i' => yv.getD i' 0)
              (fun i' => (npDiff t).getD i' 0) i.1) := by
      funext i
      rw [bSolved, getD_ofFn _ i.2]
    rw [← hAe, ← hBe]
    show Matrix.mulVec (Matrix.of _)
      (fun i : Fin t.length => (bSolved t yv).getD i.1 0) = _
    rw [hb]
    exact mulVec_linSolve _ _ hdet

/-- C5 witness: a three-knot instance satisfies all the hypotheses, so the
fit succeeds. -/
theorem C5_witness : (Spline.fit ([0, 1, 2] : List ℚ) [0, 1, 0]).isOk = true := by
  obtain ⟨s, hs, -⟩ :=
    C5_b_solves_tridiagonal_system ([0, 1, 2] : List ℚ) [0, 1, 0]
      (by decide) (by decide) (by decide)
  rw [hs]
  rfl

/-- C6: all three evaluators return the deliberate `None` (no exception, no
number) exactly when the query lies strictly outside the knot range. -/
theorem C6_none_iff_out_of_range (s : Spline K) (x0 : K) (xs : List K)
    (hx : s.x = x0 :: xs) (q : K) :
    ((q < x0 ∨ (x0 :: xs).getLastD 0 < q) ↔ s.position q = .ok none)
      ∧ ((q < x0 ∨ (x0 :: xs).getLastD 0 < q) ↔ s.firstDerivative q = .ok none)
      ∧ ((q < x0 ∨ (x0 :: xs).getLastD 0 < q) ↔ s.secondDerivative q = .ok none) := by
  obtain ⟨sx, sa, sb, sc, sd⟩ := s
  simp only at hx
  subst hx
  by_cases hout : q < x0 ∨ (x0 :: xs).getLastD 0 < q
  · have hC : ¬(x0 ≤ q ∧ q ≤ (x0 :: xs).getLastD 0) := by
      rcases hout with h | h
      · intro hand
        exact absurd hand.1 (not_le.mpr h)
      · intro hand
        exact absurd hand.2 (not_le.mpr h)
    refine ⟨iff_of_true hout ?_, iff_of_true hout ?_, iff_of_true hout ?_⟩ <;>
      · simp only [Spline.position, Spline.firstDerivative,
          Spline.secondDerivative]
        rw [if_pos hC]
  · push_neg at hout
    refine ⟨iff_of_false (by push_neg; exact hout) ?_,
      iff_of_false (by push_neg; exact hout) ?_,
      iff_of_false (by push_neg; exact hout) ?_⟩ <;>
      · simp only [Spline.position, Spline.firstDerivative,
          Spline.secondDerivative]
        rw [if_neg (not_not_intro ⟨hout.1, le_of_not_lt (not_lt.mpr hout.2)⟩)]
        intro habs
        split at habs <;> simp at habs

/-- C6 witness: a query one unit beyond the last knot of a concrete spline
returns the `None` outcome. -/
theorem C6_witness :
    (Spline.mk ([0, 1] : List ℚ) [0] [0, 0] [1] [0, 1]).position 2 = .ok none :=
  (C6_none_iff_out_of_range ⟨[0, 1], [0], [0, 0], [1], [0, 1]⟩ 0 [1] rfl 2).1.mp
    (by decide)

/-- C4: the claim includes interpolation exactness at the last knot
`t[N-1]`; there the unguarded segment search overruns the coefficient lists
and the query raises `IndexError` instead of returning `y[N-1]`.  Concrete
refutation at `t = y = [0, 1, 2]`, query `2`. -/
theorem C4_last_knot_not_reproduced :
    (Spline.fit ([0, 1, 2] : List ℚ) [0, 1, 2]).map (fun s => s.position 2)
      = .ok (.error .indexError) := by
  rw [fit_ok ([0, 1, 2] : List ℚ) [0, 1, 2] (by decide) (by decide) (by decide)]
  have h := (eval_at_last_knot [0, 1, 2] (aSolved ([0, 1, 2] : List ℚ) [0, 1, 2])
    (bSolved [0, 1, 2] [0, 1, 2]) (cSolved [0, 1, 2] [0, 1, 2]) [0, 1, 2]
    (by decide) (by decide) (aSolved_length _ _)).1
  have e : (([0, 1, 2] : List ℚ).getD (([0, 1, 2] : List ℚ).length - 1) 0)
      = 2 := rfl
  rw [e] at h
  simp only [Except.map]
  rw [h]

/-- C4 (amended): interpolation exactness holds at every knot `t[j]` with
`j ≤ N-2` (the cubic collapses to its constant term `d[j] = y[j]`); at the
last knot `t[N-1]` the evaluation raises `IndexError` instead (the C1
off-by-one defect), so exactness there fails. -/
theorem C4_amended_exact_at_inner_knots (t yv : List K) (hn : 2 ≤ t.length)
    (hsort : List.Pairwise (· < ·) t) (hylen : yv.length = t.length) :
    ∃ s, Spline.fit t yv = .ok s
      ∧ (∀ j, j + 1 < t.length →
          s.position (t.getD j 0) = .ok (some (yv.getD j 0)))
      ∧ s.position (t.getD (t.length - 1) 0) = .error .indexError := by
  refine ⟨_, fit_ok t yv hn hsort (by omega), ?_, ?_⟩
  · intro j hj
    exact position_at_knot t (aSolved t yv) (bSolved t yv) (cSolved t yv) yv
      hsort hj (by rw [aSolved_length]; omega) (by rw [bSolved_length]; omega)
      (by rw [cSolved_length]; omega) (by omega)
  · exact (eval_at_last_knot t (aSolved t yv) (bSolved t yv) (cSolved t yv) yv
      hsort hn (aSolved_length t yv)).1

/-- C4 amended-claim witness: a concrete fit satisfying the hypotheses. -/
theorem C4_amended_witness :
    (Spline.fit ([0, 1, 2] : List ℚ) [3, 4, 5]).isOk = true := by
  obtain ⟨s, hs, -, -⟩ :=
    C4_amended_exact_at_inner_knots ([0, 1, 2] : List ℚ) [3, 4, 5]
      (by decide) (by decide) (by decide)
  rw [hs]
  rfl

/-- C1: the claim requires that a query exactly at the last knot resolve to
segment `N-2` and return a number.  In the code `__search_index` is
`bisect.bisect(x, q) - 1` with no off-by-one guard, so at `t = [0, 1]`,
`y = [0, 1]`, `q = 1` the lookup yields segment index `1 = N-1`, the access
`a[1]` is out of range, and all three evaluators raise `IndexError`. -/
theorem C1_last_knot_lookup_overruns :
    (Spline.fit ([0, 1] : List ℚ) [0, 1]).map (fun s => s.searchIndex 1)
        = .ok 1
      ∧ (Spline.fit ([0, 1] : List ℚ) [0, 1]).map (fun s => s.position 1)
        = .ok (.error .indexError)
      ∧ (Spline.fit ([0, 1] : List ℚ) [0, 1]).map
          (fun s => s.firstDerivative 1) = .ok (.error .indexError)
      ∧ (Spline.fit ([0, 1] : List ℚ) [0, 1]).map
          (fun s => s.secondDerivative 1) = .ok (.error .indexError) := by
  have hfit := fit_ok ([0, 1] : List ℚ) [0, 1] (by decide) (by decide) (by decide)
  have hlast := eval_at_last_knot [0, 1] (aSolved ([0, 1] : List ℚ) [0, 1])
    (bSolved [0, 1] [0, 1]) (cSolved [0, 1] [0, 1]) [0, 1]
    (by decide) (by decide) (aSolved_length _ _)
  have e : (([0, 1] : List ℚ).getD (([0, 1] : List ℚ).length - 1) 0) = 1 := rfl
  rw [e] at hlast
  have hbis : bisect ([0, 1] : List ℚ) 1 = 2 := by
    have := bisect_at_last_knot (x := ([0, 1] : List ℚ)) (by decide) (by decide)
    rwa [e] at this
  refine ⟨?_, ?_, ?_, ?_⟩ <;> rw [hfit] <;> simp only [Except.map]
  · show Except.ok (bisect ([0, 1] : List ℚ) 1 - 1) = Except.ok 1
    rw [hbis]
  · rw [hlast.1]
  · rw [hlast.2.1]
  · rw [hlast.2.2]

/-- C9: the computed knot sequence is the cumulative Euclidean arc length:
length `N`, `knot[0] = 0`, `knot[i] = knot[i-1] + dist(waypoint i-1,
waypoint i)`, strictly increasing when no two consecutive waypoints
coincide. -/
theorem C9_knots_cumulative_arc_length (x y : List ℝ)
    (hlen : x.length = y.length) (hn : 2 ≤ x.length)
    (hdist : ∀ i, i + 1 < x.length →
      ¬(x.getD (i + 1) 0 - x.getD i 0 = 0 ∧ y.getD (i + 1) 0 - y.getD i 0 = 0)) :
    ∃ knots, computeKnots x y = .ok knots
      ∧ knots.length = x.length
      ∧ knots.getD 0 0 = 0
      ∧ (∀ i, i + 1 < x.length →
          knots.getD (i + 1) 0 = knots.getD i 0
            + Real.sqrt ((x.getD (i + 1) 0 - x.getD i 0) ^ 2
              + (y.getD (i + 1) 0 - y.getD i 0) ^ 2))
      ∧ List.Pairwise (· < ·) knots := by
  obtain ⟨hck, h1, h2, h3, h4⟩ := knots_facts x y hlen hn hdist
  exact ⟨_, hck, h1, h2, h4, h3⟩

/-- C9 witness: the knot computation succeeds on a concrete two-waypoint
input. -/
theorem C9_witness : (computeKnots [0, 1] [0, 1]).isOk = true := by
  obtain ⟨knots, hk, -⟩ := C9_knots_cumulative_arc_length [0, 1] [0, 1]
    rfl (by decide) (by simp [Nat.succ_lt_succ_iff, Nat.lt_one_iff])
  rw [hk]
  rfl

/-- C7: the sampled parameters are the arithmetic sweep
`knot[0] + k · step` for exactly those `k` whose value lies strictly below
`knot[-1]` (half-open sweep), and the three stored output sequences each
have exactly one entry per sample. -/
theorem C7_half_open_sampling (x y : List ℝ) (step : ℝ)
    (hlen : x.length = y.length) (hn : 2 ≤ x.length) (hstep : 0 < step)
    (hdist : ∀ i, i + 1 < x.length →
      ¬(x.getD (i + 1) 0 - x.getD i 0 = 0 ∧ y.getD (i + 1) 0 - y.getD i 0 = 0)) :
    ∃ d, Spline2D.construct x y step = .ok d
      ∧ d.curvature.length = d.positions.length
      ∧ d.yaw.length = d.positions.length
      ∧ d.positions.length = arangeLen (d.knots.getD 0 0)
          (d.knots.getD (d.knots.length - 1) 0) step
      ∧ (∀ k, k < d.positions.length →
          (arange (d.knots.getD 0 0) (d.knots.getD (d.knots.length - 1) 0)
            step).getD k 0 = d.knots.getD 0 0 + k * step)
      ∧ (∀ k : ℕ, k < d.positions.length ↔
          d.knots.getD 0 0 + k * step
            < d.knots.getD (d.knots.length - 1) 0) := by
  obtain ⟨d, hcon, hk, hplen, hck, hwk, -, -, -⟩ :=
    construct_ok x y step hlen hn hstep hdist
  have hk0 : d.knots.getD 0 0 = 0 := by rw [hk]; rfl
  refine ⟨d, hcon, hck, hwk, ?_, ?_, ?_⟩
  · rw [hplen, hk0]
  · intro k hkp
    rw [hplen] at hkp
    rw [hk0]
    exact arange_getD hkp
  · intro k
    rw [hplen, hk0, lt_arangeLen_iff hstep k]

/-- C7 witness: a concrete construction satisfying all the hypotheses. -/
theorem C7_witness : (Spline2D.construct [0, 1] [0, 1] (1 / 2)).isOk = true := by
  obtain ⟨d, hd, -⟩ := C7_half_open_sampling [0, 1] [0, 1] (1 / 2)
    rfl (by decide) (by simp) (by simp [Nat.succ_lt_succ_iff, Nat.lt_one_iff])
  rw [hd]
  rfl

/-- C8: every stored curvature entry equals
`(y2 x1 - x2 y1) / (x1² + y1²)^(3/2)` and every stored yaw entry equals
`atan2(y1, x1)`, where `x1, x2, y1, y2` are the axis splines' first and
second derivatives at the corresponding sampled parameter, and every yaw
value lies in `(-π, π]`. -/
theorem C8_curvature_yaw_formulas (x y : List ℝ) (step : ℝ)
    (hlen : x.length = y.length) (hn : 2 ≤ x.length) (hstep : 0 < step)
    (hdist : ∀ i, i + 1 < x.length →
      ¬(x.getD (i + 1) 0 - x.getD i 0 = 0 ∧ y.getD (i + 1) 0 - y.getD i 0 = 0)) :
    ∃ d, Spline2D.construct x y step = .ok d
      ∧ ∀ k : ℕ, k < d.curvature.length →
          ∃ x1 x2 y1 y2 : ℝ,
            d.splineX.firstDerivative (d.knots.getD 0 0 + k * step)
                = .ok (some x1)
              ∧ d.splineX.secondDerivative (d.knots.getD 0 0 + k * step)
                = .ok (some x2)
              ∧ d.splineY.firstDerivative (d.knots.getD 0 0 + k * step)
                = .ok (some y1)
              ∧ d.splineY.secondDerivative (d.knots.getD 0 0 + k * step)
                = .ok (some y2)
              ∧ d.curvature.getD k 0
                = (y2 * x1 - x2 * y1) / (x1 ^ 2 + y1 ^ 2) ^ ((3 : ℝ) / 2)
              ∧ d.yaw.getD k 0 = atan2 y1 x1
              ∧ d.yaw.getD k 0 ∈ Set.Ioc (-Real.pi) Real.pi := by
  obtain ⟨-, hklen, -, hksort, -⟩ := knots_facts x y hlen hn hdist
  obtain ⟨d, hcon, hk, hplen, hclen, hwlen, hsX, hsY, hptw⟩ :=
    construct_ok x y step hlen hn hstep hdist
  have hk0 : d.knots.getD 0 0 = 0 := by rw [hk]; rfl
  refine ⟨d, hcon, ?_⟩
  intro k hkc
  have hkp : k < d.positions.length := by omega
  obtain ⟨hkv, hwv⟩ := hptw k hkp
  have ht1 : (0 :: npCumsum (hypotList x y)).getD 0 0 ≤ 0 + (k : ℝ) * step := by
    show (0 : ℝ) ≤ 0 + (k : ℝ) * step
    positivity
  have ht2 : 0 + (k : ℝ) * step
      < (0 :: npCumsum (hypotList x y)).getD
          ((0 :: npCumsum (hypotList x y)).length - 1) 0 := by
    rw [hplen] at hkp
    have := (lt_arangeLen_iff hstep k).mp hkp
    rwa [hk] at this
  obtain ⟨-, ⟨x1, hx1⟩, ⟨x2, hx2⟩⟩ := eval_in_range
    (0 :: npCumsum (hypotList x y)) (aSolved (0 :: npCumsum (hypotList x y)) x)
    (bSolved (0 :: npCumsum (hypotList x y)) x)
    (cSolved (0 :: npCumsum (hypotList x y)) x) x hksort (by omega)
    (by rw [aSolved_length]) (by rw [bSolved_length]; omega)
    (by rw [cSolved_length]) (by omega) (0 + (k : ℝ) * step) ht1 ht2
  obtain ⟨-, ⟨y1, hy1⟩, ⟨y2, hy2⟩⟩ := eval_in_range
    (0 :: npCumsum (hypotList x y)) (aSolved (0 :: npCumsum (hypotList x y)) y)
    (bSolved (0 :: npCumsum (hypotList x y)) y)
    (cSolved (0 :: npCumsum (hypotList x y)) y) y hksort (by omega)
    (by rw [aSolved_length]) (by rw [bSolved_length]; omega)
    (by rw [cSolved_length]) (by omega) (0 + (k : ℝ) * step) ht1 ht2
  rw [hk] at hsX hsY
  rw [← hsX] at hx1 hx2
  rw [← hsY] at hy1 hy2
  have hcv : computeCurvature d.splineX d.splineY (0 + (k : ℝ) * step)
      = .ok ((y2 * x1 - x2 * y1) / (x1 ^ 2 + y1 ^ 2) ^ ((3 : ℝ) / 2)) := by
    rw [computeCurvature, hx1]
    show (d.splineX.secondDerivative _).bind _ = _
    rw [hx2]
    show (d.splineY.firstDerivative _).bind _ = _
    rw [hy1]
    show (d.splineY.secondDerivative _).bind _ = _
    rw [hy2]
    rfl
  have hyv : computeYaw d.splineX d.splineY (0 + (k : ℝ) * step)
      = .ok (atan2 y1 x1) := by
    rw [computeYaw, hy1]
    show (d.splineX.firstDerivative _).bind _ = _
    rw [hx1]
    rfl
  have hcurv : d.curvature.getD k 0
      = (y2 * x1 - x2 * y1) / (x1 ^ 2 + y1 ^ 2) ^ ((3 : ℝ) / 2) := by
    have := hcv.symm.trans hkv
    simpa using this.symm
  have hyaw : d.yaw.getD k 0 = atan2 y1 x1 := by
    have := hyv.symm.trans hwv
    simpa using this.symm
  rw [hk0]
  refine ⟨x1, x2, y1, y2, hx1, hx2, hy1, hy2, hcurv, hyaw, ?_⟩
  rw [hyaw, atan2]
  exact Complex.arg_mem_Ioc _

/-- C8 witness: a concrete construction satisfying all the hypotheses. -/
theorem C8_witness : (Spline2D.construct [0, 2] [0, 2] (1 / 2)).isOk = true := by
  obtain ⟨d, hd, -⟩ := C8_curvature_yaw_formulas [0, 2] [0, 2] (1 / 2)
    rfl (by decide) (by simp) (by simp [Nat.succ_lt_succ_iff, Nat.lt_one_iff])
  rw [hd]
  rfl

/-- C2: the claim says `Spline2D` construction raises a configuration error
whenever `generation_step ≤ 0`.  `__init__` assigns the underscore fields
directly, bypassing the validating `generation_step` setter, and
`np.arange` with a negative step just yields an empty sweep — so
`Spline2D([0, 1], [0, 0], generation_step=-1)` constructs a complete
instance with empty output sequences and raises nothing. -/
theorem C2_negative_step_not_rejected :
    (Spline2D.construct [0, 1] [0, 0] (-1)).map
      (fun d => (d.positions.length, d.curvature.length, d.yaw.length))
      = .ok (0, 0, 0) := by
  have hHL : hypotList ([0, 1] : List ℝ) [0, 0] = [1] := by
    simp [hypotList, npDiff]
  have hcum : npCumsum ([1] : List ℝ) = [1] := by
    rw [npCumsum_cons]
    rfl
  have hknots : computeKnots [0, 1] [0, 0] = .ok [0, 1] := by
    rw [computeKnots_ok [0, 1] [0, 0] rfl, hHL, hcum]
  have hfitx : Spline.fit ([0, 1] : List ℝ) [0, 1]
      = .ok ⟨[0, 1], aSolved [0, 1] [0, 1], bSolved [0, 1] [0, 1],
          cSolved [0, 1] [0, 1], [0, 1]⟩ :=
    fit_ok [0, 1] [0, 1] (by decide) (by simp) (by decide)
  have hfity : Spline.fit ([0, 1] : List ℝ) [0, 0]
      = .ok ⟨[0, 1], aSolved [0, 1] [0, 0], bSolved [0, 1] [0, 0],
          cSolved [0, 1] [0, 0], [0, 0]⟩ :=
    fit_ok [0, 1] [0, 0] (by decide) (by simp) (by decide)
  have hlen0 : arangeLen 0 1 (-1) = 0 := by
    rw [arangeLen, show ((1 : ℝ) - 0) / (-1) = ((-1 : ℤ) : ℝ) by norm_num,
      Int.ceil_intCast]
    rfl
  have harange : arange 0 1 (-1) = [] := by
    rw [arange, hlen0]
    rfl
  have hres : ∀ sx sy : Spline ℝ,
      computeResults [0, 1] sx sy (-1) = .ok ([], [], []) := by
    intro sx sy
    show (if (-1 : ℝ) = 0 then _ else _) = _
    rw [if_neg (by norm_num), show (((0 : ℝ) :: [1]).getLastD 0) = 1 from rfl,
      harange]
    rfl
  rw [Spline2D.construct, hknots]
  show ((Spline.fit ([0, 1] : List ℝ) [0, 1]).bind _).map _ = _
  rw [hfitx]
  show ((Spline.fit ([0, 1] : List ℝ) [0, 0]).bind _).map _ = _
  rw [hfity]
  show ((computeResults [0, 1] _ _ (-1)).bind _).map _ = _
  rw [hres]
  rfl

/-- C10: for a non-collinear triple the stored vertex multiset equals the
input multiset, but the vertices may be stored under different names: a
vertical `a`-`b` segment swaps `a` with `c`, and (otherwise) a vertical
`a`-`c` segment swaps `a` with `b`; with no vertical segment the triple is
stored unchanged. -/
theorem C10_vertex_multiset_preserved_with_swaps (a b c : Pt K)
    (hnc : collinearExpr a b c ≠ 0) :
    ∃ v : Pt K × Pt K × Pt K, circumVertices a b c = .ok v
      ∧ ({v.1, v.2.1, v.2.2} : Multiset (Pt K)) = {a, b, c}
      ∧ (b.x - a.x = 0 → v = (c, b, a))
      ∧ (b.x - a.x ≠ 0 → c.x - a.x = 0 → v = (b, a, c))
      ∧ (b.x - a.x ≠ 0 → c.x - a.x ≠ 0 → v = (a, b, c)) := by
  obtain ⟨h1, h2, h3⟩ := calcVertices_characterization a b c hnc
  refine ⟨calcVertices a b c, by rw [circumVertices, if_neg hnc], ?_, h1, h2, h3⟩
  by_cases hba : b.x - a.x = 0
  · rw [h1 hba]
    show ({c, b, a} : Multiset (Pt K)) = {a, b, c}
    simp only [Multiset.insert_eq_cons]
    rw [← Multiset.cons_zero a, ← Multiset.cons_zero c, Multiset.cons_swap b a,
      Multiset.cons_swap c a, Multiset.cons_swap c b]
  · by_cases hca : c.x - a.x = 0
    · rw [h2 hba hca]
      show ({b, a, c} : Multiset (Pt K)) = {a, b, c}
      simp only [Multiset.insert_eq_cons]
      rw [Multiset.cons_swap b a]
    · rw [h3 hba hca]

/-- C10 witness: with a vertical `a`-`b` segment the `a` accessor afterward
returns the original third vertex `c`. -/
theorem C10_witness :
    circumVertices (⟨0, 0⟩ : Pt ℚ) ⟨0, 1⟩ ⟨1, 0⟩
      = .ok (⟨1, 0⟩, ⟨0, 1⟩, ⟨0, 0⟩) := by
  obtain ⟨v, hv, -, h1, -, -⟩ :=
    C10_vertex_multiset_preserved_with_swaps (⟨0, 0⟩ : Pt ℚ) ⟨0, 1⟩ ⟨1, 0⟩
      (by simp [collinearExpr])
  rw [hv, h1 (by simp)]
